import Mathlib

set_option linter.unusedSectionVars false
set_option linter.unusedVariables false

/-!
Verification of the step-function time-series engine (`traces/timeseries.py`).

A `TimeSeries` is a sorted association list from times to values together with
a default policy (`ExtendBack` or an explicit value).  The sorted dictionary of
the implementation (`sortedcontainers.SortedDict`) is embedded as a list of
pairs whose keys are strictly increasing; `bisect_right`-style lookups become
structural recursions over that list.  Errors (`KeyError`, `ValueError`) are
embedded as `Option`: `none` is a raised error.
-/

namespace Traces

/-- The `default` attribute: either the `EXTEND_BACK` sentinel or an explicit
default value, mirroring `TimeSeries.__init__(default=EXTEND_BACK)`. -/
inductive Default (V : Type) where
  | extendBack : Default V
  | explicit : V → Default V
deriving DecidableEq

/-- A time series: the `SortedDict` of measurements as a sorted association
list, plus the raw `_default` field. -/
structure TimeSeries (T V : Type) where
  points : List (T × V)
  dflt : Default V
deriving DecidableEq

variable {T V : Type} [LinearOrder T] [DecidableEq V]

/-- The sortedness invariant of the `SortedDict`: keys strictly increase. -/
def SortedPts (l : List (T × V)) : Prop :=
  l.Pairwise (fun p q => p.1 < q.1)

instance (l : List (T × V)) : Decidable (SortedPts l) := by
  unfold SortedPts; infer_instance

/-- `TimeSeries.is_floating`: empty with the `EXTEND_BACK` sentinel. -/
def TimeSeries.isFloating (ts : TimeSeries T V) : Bool :=
  match ts.dflt with
  | .extendBack => ts.points.isEmpty
  | .explicit _ => false

/-- The `default` property: raises (`none`) when floating, resolves
`EXTEND_BACK` to the first recorded value, and returns explicit defaults. -/
def TimeSeries.defaultVal (ts : TimeSeries T V) : Option V :=
  match ts.dflt with
  | .extendBack => ts.points.head?.map Prod.snd
  | .explicit v => some v

/-- `bisect_right` on the sorted key list, as used by `_get_previous`: the
last `(key, value)` pair whose key is `≤ t`, if any. -/
def lastLe (t : T) : List (T × V) → Option (T × V)
  | [] => none
  | p :: rest => if p.1 ≤ t then some ((lastLe t rest).getD p) else none

/-- `TimeSeries._get_previous` (the `'previous'` getter of `get`): value at
the greatest key `≤ t`, else the resolved default. -/
def TimeSeries.getPrevious (ts : TimeSeries T V) (t : T) : Option V :=
  match lastLe t ts.points with
  | some p => some p.2
  | none => ts.defaultVal

/-- `self._d[time] = value` on the sorted association list. -/
def setKey : List (T × V) → T → V → List (T × V)
  | [], t, v => [(t, v)]
  | (t', v') :: rest, t, v =>
    if t < t' then (t, v) :: (t', v') :: rest
    else if t = t' then (t, v) :: rest
    else (t', v') :: setKey rest t v

/-- `del self._d[time]` ignoring absence (used where a `KeyError` is caught
or cannot occur). -/
def delKey (l : List (T × V)) (t : T) : List (T × V) :=
  l.filter (fun p => p.1 ≠ t)

/-- `TimeSeries.set(time, value, compact)`: write unconditionally unless
`compact` is set, the series is non-empty and the current value already
equals `value`. -/
def TimeSeries.set (ts : TimeSeries T V) (t : T) (v : V) (compact : Bool) :
    TimeSeries T V :=
  if ts.points.isEmpty || !compact || decide (ts.getPrevious t ≠ some v) then
    { ts with points := setKey ts.points t v }
  else ts

/-- `TimeSeries.remove(time)`: delete an exact measurement, raising
(`none`) when no key equals `t`. -/
def TimeSeries.remove (ts : TimeSeries T V) (t : T) :
    Option (TimeSeries T V) :=
  if ts.points.any (fun p => p.1 = t) then
    some { ts with points := delKey ts.points t }
  else none

/-- The loop of `iterperiods`: starting from `(t0, v0)`, walk the keys of the
window (`islice(start_index, end_index)`), yielding a
`(interval_t0, interval_t1, interval_value)` triple per key accepted by the
predicate, then the final short period when `interval_t0 < end`. -/
def buildPeriods (pred : T → T → V → Bool) :
    T → V → List (T × V) → T → List (T × T × V)
  | t0, v0, [], e =>
    if t0 < e then (if pred t0 e v0 then [(t0, e, v0)] else []) else []
  | t0, v0, (k, kv) :: rest, e =>
    if pred t0 k v0 then (t0, k, v0) :: buildPeriods pred k kv rest e
    else buildPeriods pred k kv rest e

/-- `TimeSeries.iterperiods(start, end, value)` with resolved finite
boundaries: `none` models the `ValueError` of `_check_boundaries` when
`start ≥ end` and the `KeyError` of resolving the default of a floating
series for `start_value`. -/
def TimeSeries.iterPeriods (ts : TimeSeries T V) (s e : T)
    (pred : T → T → V → Bool) : Option (List (T × T × V)) :=
  if e ≤ s then none
  else
    match ts.getPrevious s with
    | none => none
    | some v0 =>
      some (buildPeriods pred s v0
        (ts.points.filter (fun p => s < p.1 ∧ p.1 ≤ e)) e)

/-- `TimeSeries.set_interval(start, end, value, compact)`: set the first
period's start to `value`, delete the start key of every later period, then
write the last period's value at `end`.  `none` models the uncaught
exceptions (`ValueError`/`KeyError` from `iterperiods`, `KeyError` from
`del`, and the unbound loop variable when no period is yielded). -/
def TimeSeries.setInterval (ts : TimeSeries T V) (s e : T) (v : V)
    (compact : Bool) : Option (TimeSeries T V) := do
  let trips ← ts.iterPeriods s e (fun _ _ _ => true)
  match trips with
  | [] => none
  | first :: rest =>
    let ts1 := TimeSeries.set ts first.1 v compact
    let ts2 ← rest.foldlM (fun acc trip => acc.remove trip.1) ts1
    return ts2.set e (rest.getLastD first).2.2 compact

/-- `TimeSeries.remove_points_from_interval(start, end)`: delete the start
key of every period in the window, ignoring missing keys. -/
def TimeSeries.removePointsFromInterval (ts : TimeSeries T V) (s e : T) :
    Option (TimeSeries T V) := do
  let trips ← ts.iterPeriods s e (fun _ _ _ => true)
  return trips.foldl
    (fun acc trip => { acc with points := delKey acc.points trip.1 }) ts

/-- The deletion loop of `TimeSeries.compact()`: drop every pair whose value
equals the previous pair's value; the accumulator is the previous value
(`none` is the initial sentinel `object()`). -/
def compactList : Option V → List (T × V) → List (T × V)
  | _, [] => []
  | prev, (t, v) :: rest =>
    if prev = some v then compactList (some v) rest
    else (t, v) :: compactList (some v) rest

/-- `TimeSeries.compact()`. -/
def TimeSeries.compactTS (ts : TimeSeries T V) : TimeSeries T V :=
  { ts with points := compactList none ts.points }

/-- One entry of the merge priority queue:
`(time, series index, value, rest of the series iterator)`. -/
abbrev MergeEntry (T V : Type) := T × ℕ × V × List (T × V)

/-- `queue.get()` of the `PriorityQueue` in `_iter_merge`: extract the least
entry.  Python compares the `(t, index, value, iterator)` tuples
lexicographically; since the queue never holds two entries with the same
series index, the comparison is decided by `(t, index)`. -/
def popMin : List (MergeEntry T V) →
    Option (MergeEntry T V × List (MergeEntry T V))
  | [] => none
  | x :: xs =>
    match popMin xs with
    | none => some (x, [])
    | some (m, rest) =>
      if x.1 < m.1 ∨ (x.1 = m.1 ∧ x.2.1 ≤ m.2.1) then some (x, xs)
      else some (m, x :: rest)

/-- The loop of `_iter_merge`, instrumented with the index of the series each
yield came from (the yielded pair of the source is the `(t, state)`
projection).  The fuel equals the total number of measurements, which is
exactly the number of iterations the loop performs. -/
def mergeLoop : ℕ → List (MergeEntry T V) → List V → List (T × ℕ × List V)
  | 0, _, _ => []
  | n + 1, q, state =>
    match popMin q with
    | none => []
    | some ((t, i, v, cursor), rest) =>
      let state1 := state.set i v
      let q1 := match cursor with
        | [] => rest
        | c :: cs => rest ++ [(c.1, i, c.2, cs)]
      (t, i, state1) :: mergeLoop n q1 state1

/-- The seeding loop of `_iter_merge`
(`for index, timeseries in enumerate(...)`): one queue entry per non-empty
series, holding its first measurement and the rest of its iterator;
`i` is the index of the first series of the remaining list. -/
def seedQueue : ℕ → List (TimeSeries T V) → List (MergeEntry T V)
  | _, [] => []
  | i, ts :: rest =>
    match ts.points with
    | [] => seedQueue (i + 1) rest
    | q :: qs => (q.1, i, q.2, qs) :: seedQueue (i + 1) rest

/-- `TimeSeries._iter_merge(timeseries_list)` instrumented with series
indices: seed the queue with the first measurement of each series, start
`state` as the list of resolved defaults (raising, i.e. `none`, when one is
floating), then pop/yield/advance until the queue is empty. -/
def iterMergeRaw (tss : List (TimeSeries T V)) :
    Option (List (T × ℕ × List V)) := do
  let state ← tss.mapM TimeSeries.defaultVal
  return mergeLoop ((tss.map (fun ts => ts.points.length)).sum)
    (seedQueue 0 tss) state

/-- `TimeSeries._iter_merge` itself: the `(t, state)` yields. -/
def TimeSeries.iterMergeU (tss : List (TimeSeries T V)) :
    Option (List (T × List V)) :=
  (iterMergeRaw tss).map (List.map (fun x => (x.1, x.2.2)))

/-- The tie-collapsing loop of `TimeSeries.iter_merge`: of each run of yields
carrying equal times, keep only the last. -/
def collapseLast {S : Type} : List (T × S) → List (T × S)
  | [] => []
  | [x] => [x]
  | x :: y :: rest =>
    if x.1 = y.1 then collapseLast (y :: rest)
    else x :: collapseLast (y :: rest)

/-- `TimeSeries.iter_merge(timeseries_list)`: empty input yields nothing,
a floating input raises, otherwise collapse the `_iter_merge` yields. -/
def TimeSeries.iterMerge (tss : List (TimeSeries T V)) :
    Option (List (T × List V)) :=
  if tss.isEmpty then some []
  else if tss.any (fun ts => ts.isFloating) then none
  else (TimeSeries.iterMergeU tss).map collapseLast

/-- `TimeSeries.merge(ts_list)` with its default arguments
(`compact=True`, `operation=None`, `default=None`): write each merged
`(t, state)` into a fresh series with compact writes.  The inferred default
of the result is a value of the input value type stored on a series whose
measurements are value lists; it is never consulted by the compact writes
(they only query times at or above an existing key) nor by `items()`, and
the typed embedding records the `EXTEND_BACK` sentinel in its place. -/
def TimeSeries.merge (tss : List (TimeSeries T V)) :
    Option (TimeSeries T (List V)) :=
  match tss with
  | [] => some { points := [], dflt := Default.extendBack }
  | _ :: _ => do
    let out ← TimeSeries.iterMerge tss
    return out.foldl (fun acc p => acc.set p.1 p.2 true)
      { points := [], dflt := Default.extendBack }

/-- `TimeSeries.slice(start, end)`: a fresh series (with the resolved
default) holding one point per period of the window, plus the final
`result[t1] = self[t1]` write. -/
def TimeSeries.sliceTS (ts : TimeSeries T V) (s e : T) :
    Option (TimeSeries T V) := do
  let dv ← ts.defaultVal
  let trips ← ts.iterPeriods s e (fun _ _ _ => true)
  match trips with
  | [] => none
  | _ :: _ =>
    let base := trips.foldl (fun acc tr => acc.set tr.1 tr.2.2 false)
      (TimeSeries.mk [] (Default.explicit dv))
    let t1 := (trips.getLastD (s, e, dv)).2.1
    let v1 ← ts.getPrevious t1
    return base.set t1 v1 false

/-- `Domain.lower` (`start()`): the first key, or `-inf` when empty. -/
def TimeSeries.lowerB [OrderBot T] (d : TimeSeries T V) : T :=
  match d.points.head? with
  | some p => p.1
  | none => ⊥

/-- `Domain.upper` (`end()`): the last key, or `+inf` when empty. -/
def TimeSeries.upperB [OrderTop T] (d : TimeSeries T V) : T :=
  match d.points.getLast? with
  | some p => p.1
  | none => ⊤

/-- A `Domain`: a boolean-valued `TimeSeries` whose constructor fixes the
default to `False`. -/
def mkDomain (pts : List (T × Bool)) : TimeSeries T Bool :=
  { points := pts, dflt := Default.explicit false }

/-- `Domain.__and__(other)`: empty `Domain` when the overlap window
`[max(lowers), min(uppers)]` is empty, otherwise the pointwise `and` written
at every key of either side's slice over that window. -/
def domAnd [OrderBot T] [OrderTop T] (a b : TimeSeries T Bool) :
    Option (TimeSeries T Bool) :=
  let lower := max a.lowerB b.lowerB
  let upper := min a.upperB b.upperB
  if upper ≤ lower then some (mkDomain [])
  else do
    let sa ← a.sliceTS lower upper
    let sb ← b.sliceTS lower upper
    let r1 ← sa.points.foldlM (fun acc p => do
        let bv ← b.getPrevious p.1
        return acc.set p.1 (p.2 && bv) false) (mkDomain [])
    let r2 ← sb.points.foldlM (fun acc p => do
        let av ← a.getPrevious p.1
        return acc.set p.1 (av && p.2) false) r1
    return r2

/-! ### Concrete series used to instantiate the claims -/

/-- A two-point series with the `EXTEND_BACK` default. -/
def exC5 : TimeSeries ℚ ℚ := ⟨[(1, 5), (3, 7)], Default.extendBack⟩

/-- A one-point series with an explicit default. -/
def exC6 : TimeSeries ℚ ℚ := ⟨[(0, 3)], Default.explicit 9⟩

/-- A series with a repeated value, for compaction checks. -/
def exC10 : TimeSeries ℚ ℚ := ⟨[(0, 3), (1, 3), (2, 4)], Default.extendBack⟩

/-- A three-point series used to instantiate the amended C2. -/
def exC2w : TimeSeries ℚ ℚ := ⟨[(1, 10), (2, 20), (5, 30)], Default.explicit 0⟩

/-- A series whose window end coincides with a recorded key. -/
def exC2 : TimeSeries ℚ ℚ := ⟨[(0, 1), (2, 3)], Default.explicit 0⟩

/-- The series of the C1 counterexample: the interval end `2` is a recorded
key whose value differs from the value just before it. -/
def exC1 : TimeSeries ℚ ℚ := ⟨[(0, 5), (2, 7)], Default.explicit 0⟩

/-- The series of the C1 witness. -/
def exC1w : TimeSeries ℚ ℚ := ⟨[(0, 5), (2, 7), (3, 8)], Default.explicit 0⟩

/-- The series of scenario S3 and of the C3 counterexample. -/
def exC3 : TimeSeries ℚ ℚ := ⟨[(0, 0), (1, 2), (3, 1), (4, 0)], Default.explicit 0⟩

/-- The series of the C3 witness. -/
def exC3w : TimeSeries ℚ ℚ := ⟨[(0, 1), (2, 3), (5, 4)], Default.explicit 9⟩

/-- The starting series of scenario S3 (claim C4). -/
def exC4 : TimeSeries ℚ ℚ := ⟨[(0, 0), (1, 2), (3, 1), (4, 0)], Default.explicit 0⟩

/-- S3 after the first interval delete. -/
def exC4a : TimeSeries ℚ ℚ := ⟨[(0, 0), (1, 2), (3, 1)], Default.explicit 0⟩

/-- S3 after the second interval delete. -/
def exC4b : TimeSeries ℚ ℚ := ⟨[(0, 0), (1, 2)], Default.explicit 0⟩

/-- S3 after the third interval delete. -/
def exC4c : TimeSeries ℚ ℚ := ⟨[(0, 0), (1, 2), (3, 1), (4, 0)], Default.explicit 0⟩

/-- The strict lexicographic order on `(time, series index)` pairs that the
merge pops follow. -/
def entryLexLt (a b : T × ℕ) : Prop :=
  a.1 < b.1 ∨ (a.1 = b.1 ∧ a.2 < b.2)

/-- The reflexive lexicographic order on `(time, series index)` pairs. -/
def entryLexLe (a b : T × ℕ) : Prop :=
  a.1 < b.1 ∨ (a.1 = b.1 ∧ a.2 ≤ b.2)

/-- The total step-function value of a boolean series whose default is an
explicit boolean (specification shorthand for the Domain lemmas). -/
def domVal (d : TimeSeries T Bool) (t : T) : Bool :=
  (d.getPrevious t).getD false

/-- The time axis of the Domain claims: rationals extended with the `-inf`
and `+inf` sentinels used by `Domain.lower` and `Domain.upper`. -/
abbrev XT : Type := WithBot (WithTop ℚ)

/-- A finite time on the extended axis. -/
def fq (q : ℚ) : XT := ((q : WithTop ℚ) : XT)

/-- First Domain of the C9 counterexample: true on `[2,3)` and `[4,5)`. -/
def exC9a : TimeSeries XT Bool :=
  mkDomain [(fq 2, true), (fq 3, false), (fq 4, true), (fq 5, false)]

/-- Second Domain of the C9 counterexample: true on `[0,1)` and `[8,9)`,
hence false throughout the overlap window `[2, 5]`. -/
def exC9b : TimeSeries XT Bool :=
  mkDomain [(fq 0, true), (fq 1, false), (fq 8, true), (fq 9, false)]

/-- First Domain of the C9 witness: true on `[0, 2)`. -/
def exC9wa : TimeSeries XT Bool := mkDomain [(fq 0, true), (fq 2, false)]

/-- Second Domain of the C9 witness: true on `[1, 3)`. -/
def exC9wb : TimeSeries XT Bool := mkDomain [(fq 1, true), (fq 3, false)]

/-- First merge input of the C8 witness. -/
def exC8a : TimeSeries ℚ ℚ := ⟨[(0, 1), (2, 3)], Default.explicit 0⟩

/-- Second merge input of the C8 witness; its key `0` ties with `exC8a`. -/
def exC8b : TimeSeries ℚ ℚ := ⟨[(0, 5)], Default.explicit 6⟩

/-- A series with a repeated value: singleton merge compacts it away. -/
def exC7 : TimeSeries ℚ ℚ := ⟨[(0, 1), (1, 1)], Default.explicit 0⟩

/-- The series of the C7 witness. -/
def exC7w : TimeSeries ℚ ℚ := ⟨[(0, 1), (1, 1), (2, 5)], Default.explicit 0⟩

/-! ### Basic lemmas about the sorted association list -/

theorem sortedPts_cons {p : T × V} {l : List (T × V)} :
    SortedPts (p :: l) ↔ (∀ q ∈ l, p.1 < q.1) ∧ SortedPts l := by
  simp [SortedPts, List.pairwise_cons]

theorem lastLe_mem {t : T} {l : List (T × V)} {p : T × V}
    (h : lastLe t l = some p) : p ∈ l ∧ p.1 ≤ t := by
  induction l with
  | nil => simp [lastLe] at h
  | cons q rest ih =>
    by_cases hq : q.1 ≤ t
    · simp only [lastLe, if_pos hq, Option.some.injEq] at h
      cases hrec : lastLe t rest with
      | none =>
        rw [hrec] at h; simp at h
        subst h
        exact ⟨List.mem_cons_self q rest, hq⟩
      | some r =>
        rw [hrec] at h; simp at h
        subst h
        rcases ih hrec with ⟨h1, h2⟩
        exact ⟨List.mem_cons_of_mem q h1, h2⟩
    · simp [lastLe, hq] at h

theorem lastLe_eq_of {t : T} {l : List (T × V)} {p : T × V}
    (hs : SortedPts l) (hmem : p ∈ l) (hle : p.1 ≤ t)
    (hmax : ∀ q ∈ l, q.1 ≤ t → q.1 ≤ p.1) : lastLe t l = some p := by
  induction l with
  | nil => cases hmem
  | cons q rest ih =>
    rw [sortedPts_cons] at hs
    rcases List.mem_cons.mp hmem with rfl | hmem
    · have hnone : lastLe t rest = none := by
        cases hrec : lastLe t rest with
        | none => rfl
        | some r =>
          rcases lastLe_mem hrec with ⟨hr1, hr2⟩
          exact absurd (hmax r (List.mem_cons_of_mem _ hr1) hr2)
            (not_le.mpr (hs.1 r hr1))
      simp [lastLe, hle, hnone]
    · have hq : q.1 ≤ t := le_of_lt (lt_of_lt_of_le (hs.1 p hmem) hle)
      have hrec : lastLe t rest = some p :=
        ih hs.2 hmem (fun r hr hrle => hmax r (List.mem_cons_of_mem _ hr) hrle)
      simp [lastLe, hq, hrec]

theorem lastLe_self {t : T} {v : V} {l : List (T × V)}
    (hs : SortedPts l) (hmem : (t, v) ∈ l) : lastLe t l = some (t, v) :=
  lastLe_eq_of hs hmem le_rfl (fun q _ hq => hq)

theorem lastLe_none_of {t : T} {l : List (T × V)}
    (h : ∀ p ∈ l, ¬ p.1 ≤ t) : lastLe t l = none := by
  cases l with
  | nil => rfl
  | cons q rest => simp [lastLe, h q (List.mem_cons_self q rest)]

theorem mem_setKey {l : List (T × V)} {t : T} {v : V} {p : T × V}
    (hs : SortedPts l) :
    p ∈ setKey l t v ↔ p = (t, v) ∨ (p ∈ l ∧ p.1 ≠ t) := by
  induction l with
  | nil => simp [setKey]
  | cons q rest ih =>
    rw [sortedPts_cons] at hs
    have hrest : ∀ r ∈ rest, q.1 < r.1 := hs.1
    by_cases h1 : t < q.1
    · rw [setKey, if_pos h1]
      constructor
      · intro h
        rcases List.mem_cons.mp h with rfl | h
        · exact Or.inl rfl
        · refine Or.inr ⟨h, ?_⟩
          rcases List.mem_cons.mp h with rfl | h
          · exact ne_of_gt h1
          · exact ne_of_gt (lt_trans h1 (hrest p h))
      · rintro (rfl | ⟨h, _⟩)
        · exact List.mem_cons_self _ _
        · exact List.mem_cons_of_mem _ h
    · by_cases h2 : t = q.1
      · rw [setKey, if_neg h1, if_pos h2]
        constructor
        · intro h
          rcases List.mem_cons.mp h with rfl | h
          · exact Or.inl rfl
          · exact Or.inr ⟨List.mem_cons_of_mem _ h,
              ne_of_gt (h2 ▸ hrest p h)⟩
        · rintro (rfl | ⟨h, hne⟩)
          · exact List.mem_cons_self _ _
          · rcases List.mem_cons.mp h with rfl | h
            · exact absurd h2.symm hne
            · exact List.mem_cons_of_mem _ h
      · have h3 : q.1 < t := lt_of_le_of_ne (not_lt.mp h1) (Ne.symm h2)
        rw [setKey, if_neg h1, if_neg h2]
        constructor
        · intro h
          rcases List.mem_cons.mp h with rfl | h
          · exact Or.inr ⟨List.mem_cons_self _ _, ne_of_lt h3⟩
          · rcases (ih hs.2).mp h with rfl | ⟨h, hne⟩
            · exact Or.inl rfl
            · exact Or.inr ⟨List.mem_cons_of_mem _ h, hne⟩
        · rintro (rfl | ⟨h, hne⟩)
          · exact List.mem_cons_of_mem _ ((ih hs.2).mpr (Or.inl rfl))
          · rcases List.mem_cons.mp h with rfl | h
            · exact List.mem_cons_self _ _
            · exact List.mem_cons_of_mem _ ((ih hs.2).mpr (Or.inr ⟨h, hne⟩))

theorem sortedPts_setKey {l : List (T × V)} {t : T} {v : V}
    (hs : SortedPts l) : SortedPts (setKey l t v) := by
  induction l with
  | nil => simp [setKey, SortedPts]
  | cons q rest ih =>
    rw [sortedPts_cons] at hs
    by_cases h1 : t < q.1
    · rw [setKey, if_pos h1, sortedPts_cons, sortedPts_cons]
      exact ⟨fun r hr => by
        rcases List.mem_cons.mp hr with rfl | hr
        · exact h1
        · exact lt_trans h1 (hs.1 r hr), hs⟩
    · by_cases h2 : t = q.1
      · rw [setKey, if_neg h1, if_pos h2, sortedPts_cons]
        exact ⟨fun r hr => h2 ▸ hs.1 r hr, hs.2⟩
      · rw [setKey, if_neg h1, if_neg h2, sortedPts_cons]
        refine ⟨fun r hr => ?_, ih hs.2⟩
        rcases (mem_setKey hs.2).mp hr with rfl | ⟨hr, _⟩
        · exact lt_of_le_of_ne (not_lt.mp h1) (Ne.symm h2)
        · exact hs.1 r hr

theorem setKey_eq_self {l : List (T × V)} {t : T} {v : V}
    (h : setKey l t v = l) : (t, v) ∈ l := by
  induction l with
  | nil => simp [setKey] at h
  | cons q rest ih =>
    by_cases h1 : t < q.1
    · rw [setKey, if_pos h1] at h
      have := congrArg List.length h
      simp at this
    · by_cases h2 : t = q.1
      · rw [setKey, if_neg h1, if_pos h2] at h
        have : (t, v) = q := (List.cons.injEq _ _ _ _ ▸ h).1
        exact this ▸ List.mem_cons_self _ _
      · rw [setKey, if_neg h1, if_neg h2] at h
        have : setKey rest t v = rest := (List.cons.injEq _ _ _ _ ▸ h).2
        exact List.mem_cons_of_mem _ (ih this)

theorem sortedPts_delKey {l : List (T × V)} {t : T}
    (hs : SortedPts l) : SortedPts (delKey l t) :=
  List.Pairwise.sublist (List.filter_sublist l) hs

theorem mem_delKey {l : List (T × V)} {t : T} {p : T × V} :
    p ∈ delKey l t ↔ p ∈ l ∧ p.1 ≠ t := by
  simp [delKey, List.mem_filter]

/-! ### Lemmas about point reads and writes -/

theorem set_false_points (ts : TimeSeries T V) (t : T) (v : V) :
    (ts.set t v false).points = setKey ts.points t v := by
  simp [TimeSeries.set]

theorem getPrevious_eq_of {ts : TimeSeries T V} {t : T} (p : T × V)
    (hs : SortedPts ts.points) (hmem : p ∈ ts.points) (hle : p.1 ≤ t)
    (hmax : ∀ q ∈ ts.points, q.1 ≤ t → q.1 ≤ p.1) :
    ts.getPrevious t = some p.2 := by
  rw [TimeSeries.getPrevious, lastLe_eq_of hs hmem hle hmax]

theorem getPrevious_key {ts : TimeSeries T V} {t : T} {v : V}
    (hs : SortedPts ts.points) (hmem : (t, v) ∈ ts.points) :
    ts.getPrevious t = some v := by
  rw [TimeSeries.getPrevious, lastLe_self hs hmem]

theorem getPrevious_none_iff (ts : TimeSeries T V) (t : T) :
    ts.getPrevious t = none ↔ ts.isFloating = true := by
  unfold TimeSeries.getPrevious TimeSeries.isFloating TimeSeries.defaultVal
  cases hd : ts.dflt with
  | explicit v => cases lastLe t ts.points <;> simp
  | extendBack =>
    cases hp : ts.points with
    | nil => simp [lastLe]
    | cons p rest =>
      cases h : lastLe t (p :: rest) <;> simp [h]

theorem getPrevious_default {ts : TimeSeries T V} {t : T}
    (h : ∀ p ∈ ts.points, t < p.1) : ts.getPrevious t = ts.defaultVal := by
  rw [TimeSeries.getPrevious,
    lastLe_none_of (fun p hp => not_le.mpr (h p hp))]

/-- C5: `get(t, 'previous')` raises exactly on a floating series; otherwise
it returns the value at the greatest key `≤ t`, else the default, which
resolves to the first recorded value under `ExtendBack` and to `v` under
`Explicit(v)`. -/
theorem claimC5_get_previous (ts : TimeSeries T V) (t : T)
    (hs : SortedPts ts.points) :
    (ts.getPrevious t = none ↔ ts.isFloating = true) ∧
    (∀ p ∈ ts.points, p.1 ≤ t → (∀ q ∈ ts.points, q.1 ≤ t → q.1 ≤ p.1) →
      ts.getPrevious t = some p.2) ∧
    ((∀ p ∈ ts.points, t < p.1) → ts.getPrevious t = ts.defaultVal) ∧
    (∀ v, ts.dflt = Default.explicit v → ts.defaultVal = some v) ∧
    (∀ p rest, ts.points = p :: rest → ts.dflt = Default.extendBack →
      ts.defaultVal = some p.2) := by
  refine ⟨getPrevious_none_iff ts t,
    fun p hp hle hmax => getPrevious_eq_of p hs hp hle hmax,
    fun h => getPrevious_default h, fun v hv => ?_, fun p rest hp hd => ?_⟩
  · simp [TimeSeries.defaultVal, hv]
  · simp [TimeSeries.defaultVal, hd, hp]

theorem claimC5_witness :
    exC5.getPrevious 2 = some 5 ∧
    (exC5.getPrevious 2 = none ↔ exC5.isFloating = true) := by
  have h := claimC5_get_previous exC5 2 (by decide)
  exact ⟨h.2.1 (1, 5) (by decide) (by decide) (by decide), h.1⟩

/-- C6: on a sorted series, `set(t, v, compact=True)` leaves the stored
points unchanged exactly when the series is non-empty and `get(t)` already
equals `v`. -/
theorem claimC6_compact_set_noop (ts : TimeSeries T V) (t : T) (v : V)
    (hs : SortedPts ts.points) :
    (ts.set t v true).points = ts.points ↔
      (ts.points ≠ [] ∧ ts.getPrevious t = some v) := by
  constructor
  · intro h
    unfold TimeSeries.set at h
    by_cases hcond :
        (ts.points.isEmpty || !true || decide (ts.getPrevious t ≠ some v))
          = true
    · rw [if_pos hcond] at h
      simp only at h
      have hmem := setKey_eq_self h
      have hget := getPrevious_key hs hmem
      simp only [Bool.not_true, Bool.or_false, Bool.or_eq_true,
        List.isEmpty_eq_true, decide_eq_true_eq] at hcond
      rcases hcond with hemp | hne
      · rw [hemp] at h; simp [setKey] at h
      · exact absurd hget hne
    · rw [if_neg hcond] at h
      simp only [Bool.not_true, Bool.or_false, Bool.or_eq_true,
        List.isEmpty_eq_true, decide_eq_true_eq, not_or, not_not] at hcond
      exact ⟨hcond.1, hcond.2⟩
  · rintro ⟨hne, hget⟩
    unfold TimeSeries.set
    rw [if_neg]
    simp only [Bool.not_true, Bool.or_false, Bool.or_eq_true,
      List.isEmpty_eq_true, decide_eq_true_eq, not_or, not_not]
    exact ⟨hne, hget⟩

theorem claimC6_witness :
    (exC6.set 5 3 true).points = exC6.points ∧
    ¬ ((exC6.set 5 7 true).points = exC6.points) := by
  constructor
  · exact (claimC6_compact_set_noop exC6 5 3 (by decide)).mpr
      ⟨by decide, by decide⟩
  · intro h
    have := (claimC6_compact_set_noop exC6 5 7 (by decide)).mp h
    exact absurd this.2 (by decide)

/-! ### Lemmas about compaction -/

theorem compactList_sublist (pv : Option V) (l : List (T × V)) :
    (compactList pv l).Sublist l := by
  induction l generalizing pv with
  | nil => simp [compactList]
  | cons p rest ih =>
    obtain ⟨tk, vk⟩ := p
    by_cases h : pv = some vk
    · rw [compactList, if_pos h]
      exact (ih (some vk)).cons _
    · rw [compactList, if_neg h]
      exact (ih (some vk)).cons₂ _

theorem compactList_head_none (l : List (T × V)) :
    (compactList none l).head? = l.head? := by
  cases l with
  | nil => rfl
  | cons p rest =>
    obtain ⟨tk, vk⟩ := p
    rw [compactList, if_neg (by simp)]
    rfl

theorem lastLe_compactList (t : T) (pv : V) (l : List (T × V))
    (hs : SortedPts l) :
    ((lastLe t (compactList (some pv) l)).map Prod.snd).getD pv
      = ((lastLe t l).map Prod.snd).getD pv := by
  induction l generalizing pv with
  | nil => simp [compactList]
  | cons p rest ih =>
    obtain ⟨tk, vk⟩ := p
    rw [sortedPts_cons] at hs
    by_cases htk : tk ≤ t
    · have hrhs : ((lastLe t ((tk, vk) :: rest)).map Prod.snd).getD pv
          = ((lastLe t rest).map Prod.snd).getD vk := by
        rw [lastLe, if_pos htk]
        cases lastLe t rest <;> simp
      by_cases h : pv = vk
      · rw [compactList, if_pos (by rw [h]), hrhs, ← h, ih pv hs.2, h]
      · rw [compactList, if_neg (by simp [h]), hrhs, ← ih vk hs.2,
          lastLe, if_pos htk]
        cases lastLe t (compactList (some vk) rest) <;> simp
    · have hnone : ∀ m : List (T × V), (∀ q ∈ m, tk ≤ q.1) →
          lastLe t m = none := by
        intro m hm
        exact lastLe_none_of (fun q hq hle =>
          htk (le_trans (hm q hq) hle))
      have h1 : lastLe t ((tk, vk) :: rest) = none := by
        rw [lastLe, if_neg htk]
      by_cases h : pv = vk
      · rw [compactList, if_pos (by rw [h]), h1]
        have h2 : lastLe t (compactList (some vk) rest) = none := by
          refine hnone _ (fun q hq => ?_)
          have := (compactList_sublist (some vk) rest).mem hq
          exact le_of_lt (hs.1 q this)
        rw [h2]
      · rw [compactList, if_neg (by simp [h]), h1]
        have h2 : lastLe t ((tk, vk) :: compactList (some vk) rest)
            = none := by
          rw [lastLe, if_neg htk]
        rw [h2]

/-- C10: `compact()` preserves `get(t, 'previous')` at every time; it only
drops stored measurements (a sublist remains) and never the first one. -/
theorem claimC10_compact_preserves_get (ts : TimeSeries T V)
    (hs : SortedPts ts.points) (t : T) :
    ts.compactTS.getPrevious t = ts.getPrevious t ∧
    ts.compactTS.points.Sublist ts.points ∧
    ts.compactTS.points.head? = ts.points.head? := by
  refine ⟨?_, compactList_sublist none ts.points,
    compactList_head_none ts.points⟩
  have hdv : ts.compactTS.defaultVal = ts.defaultVal := by
    unfold TimeSeries.defaultVal TimeSeries.compactTS
    cases ts.dflt with
    | extendBack => simp [compactList_head_none]
    | explicit v => rfl
  unfold TimeSeries.getPrevious
  cases hp : ts.points with
  | nil =>
    have hc : ts.compactTS.points = [] := by
      simp [TimeSeries.compactTS, hp, compactList]
    rw [hc, hdv]
  | cons p rest =>
    obtain ⟨t0, v0⟩ := p
    rw [hp] at hs
    rw [sortedPts_cons] at hs
    have hc : ts.compactTS.points = (t0, v0) :: compactList (some v0) rest := by
      simp only [TimeSeries.compactTS, hp]
      rw [compactList, if_neg (by simp)]
    rw [hc]
    by_cases ht0 : t0 ≤ t
    · rw [lastLe, if_pos ht0, lastLe, if_pos ht0]
      have := lastLe_compactList t v0 rest hs.2
      cases h1 : lastLe t (compactList (some v0) rest) <;>
        cases h2 : lastLe t rest <;>
          rw [h1, h2] at this <;> simp at this <;> simp [this]
    · rw [lastLe, if_neg ht0, lastLe, if_neg ht0]
      exact hdv ▸ rfl

theorem claimC10_witness :
    exC10.compactTS.getPrevious (3 : ℚ) = exC10.getPrevious 3 ∧
    exC10.compactTS.points = [(0, 3), (2, 4)] :=
  ⟨(claimC10_compact_preserves_get exC10 (by decide) 3).1, by decide⟩

/-! ### Structure of the period iterator -/

theorem getLast?_cons_getLastD {α : Type} (a : α) (l : List α) :
    (a :: l).getLast? = some (l.getLastD a) := by
  induction l generalizing a with
  | nil => rfl
  | cons b rest ih => rw [List.getLast?_cons_cons, ih, List.getLastD_cons]

theorem lastLe_congr {t t' : T} {l : List (T × V)}
    (h : ∀ p ∈ l, (p.1 ≤ t ↔ p.1 ≤ t')) : lastLe t l = lastLe t' l := by
  induction l with
  | nil => rfl
  | cons p rest ih =>
    have hrec := ih (fun q hq => h q (List.mem_cons_of_mem _ hq))
    by_cases hp : p.1 ≤ t
    · rw [lastLe, if_pos hp, lastLe,
        if_pos ((h p (List.mem_cons_self _ _)).mp hp), hrec]
    · rw [lastLe, if_neg hp, lastLe,
        if_neg (fun hc => hp ((h p (List.mem_cons_self _ _)).mpr hc))]

theorem lastLe_filter_of {t : T} {l : List (T × V)} {P : T × V → Bool}
    (hs : SortedPts l) (h : ∀ p ∈ l, p.1 ≤ t → P p = true) :
    lastLe t (l.filter P) = lastLe t l := by
  induction l with
  | nil => rfl
  | cons p rest ih =>
    rw [sortedPts_cons] at hs
    have hrec := ih hs.2 (fun q hq hql => h q (List.mem_cons_of_mem _ hq) hql)
    by_cases hP : P p = true
    · rw [List.filter_cons_of_pos hP]
      by_cases hp : p.1 ≤ t
      · rw [lastLe, if_pos hp, lastLe, if_pos hp, hrec]
      · rw [lastLe, if_neg hp, lastLe, if_neg hp]
    · have hp : ¬ p.1 ≤ t := fun hc =>
        hP (h p (List.mem_cons_self _ _) hc)
      rw [List.filter_cons_of_neg hP, lastLe, if_neg hp]
      refine lastLe_none_of (fun q hq => ?_)
      have hql := hs.1 q ((List.filter_sublist rest).mem hq)
      exact fun hc => hp (le_of_lt (lt_of_lt_of_le hql hc))

theorem mem_window {ts : TimeSeries T V} {s e : T} {k : T × V} :
    k ∈ ts.points.filter (fun p => s < p.1 ∧ p.1 ≤ e) ↔
      k ∈ ts.points ∧ s < k.1 ∧ k.1 ≤ e := by
  simp [List.mem_filter]

theorem buildPeriods_head {e : T} (t0 : T) (v0 : V) (ks : List (T × V))
    (ht : t0 < e) :
    ∃ b tl, buildPeriods (fun _ _ _ => true) t0 v0 ks e
      = (t0, b, v0) :: tl := by
  cases ks with
  | nil => exact ⟨e, [], by rw [buildPeriods, if_pos ht]; rfl⟩
  | cons k rest =>
    obtain ⟨kt, kv⟩ := k
    exact ⟨kt, _, by rw [buildPeriods]; rfl⟩

theorem buildPeriods_map_fst {e : T} (ks : List (T × V)) (t0 : T) (v0 : V)
    (ht : t0 < e) (hub : ∀ k ∈ ks, k.1 ≤ e) (hs : SortedPts ks) :
    (buildPeriods (fun _ _ _ => true) t0 v0 ks e).map (fun tr => tr.1)
      = t0 :: (ks.filter (fun k => k.1 < e)).map Prod.fst := by
  induction ks generalizing t0 v0 with
  | nil => rw [buildPeriods, if_pos ht]; rfl
  | cons k rest ih =>
    obtain ⟨kt, kv⟩ := k
    rw [sortedPts_cons] at hs
    rcases lt_or_eq_of_le (hub (kt, kv) (List.mem_cons_self _ _)) with hke | hke
    · rw [buildPeriods, if_pos rfl, List.map_cons,
        ih kt kv hke (fun q hq => hub q (List.mem_cons_of_mem _ hq)) hs.2,
        List.filter_cons_of_pos (by simpa using hke)]
      rfl
    · have hke' : kt = e := hke
      have hrest : rest = [] := by
        cases rest with
        | nil => rfl
        | cons r rr =>
          have h1 := hs.1 r (List.mem_cons_self _ _)
          have h2 := hub r (List.mem_cons_of_mem _ (List.mem_cons_self _ _))
          exact absurd (lt_of_lt_of_le h1 h2) (by rw [hke']; exact lt_irrefl e)
      subst hrest
      rw [buildPeriods, if_pos rfl, buildPeriods,
        if_neg (by rw [hke']; exact lt_irrefl e),
        List.filter_cons_of_neg (by simp [hke'])]
      rfl

theorem buildPeriods_mem {e : T} (ks : List (T × V)) (t0 : T) (v0 : V)
    (hub : ∀ k ∈ ks, k.1 ≤ e) (hs : SortedPts ks) :
    ∀ tr ∈ buildPeriods (fun _ _ _ => true) t0 v0 ks e,
      (tr.1 = t0 ∧ tr.2.2 = v0) ∨ (tr.1, tr.2.2) ∈ ks := by
  induction ks generalizing t0 v0 with
  | nil =>
    intro tr htr
    rw [buildPeriods] at htr
    by_cases ht : t0 < e
    · rw [if_pos ht] at htr
      simp at htr
      subst htr
      exact Or.inl ⟨rfl, rfl⟩
    · rw [if_neg ht] at htr; cases htr
  | cons k rest ih =>
    obtain ⟨kt, kv⟩ := k
    rw [sortedPts_cons] at hs
    intro tr htr
    rw [buildPeriods, if_pos rfl] at htr
    rcases List.mem_cons.mp htr with rfl | htr
    · exact Or.inl ⟨rfl, rfl⟩
    · rcases ih kt kv (fun q hq => hub q (List.mem_cons_of_mem _ hq)) hs.2
        tr htr with ⟨h1, h2⟩ | h
      · exact Or.inr (by rw [h1, h2]; exact List.mem_cons_self _ _)
      · exact Or.inr (List.mem_cons_of_mem _ h)

theorem buildPeriods_chain {e : T} (ks : List (T × V)) (t0 : T) (v0 : V)
    (hub : ∀ k ∈ ks, k.1 ≤ e) (hs : SortedPts ks) :
    List.Chain' (fun a b => a.2.1 = b.1)
      (buildPeriods (fun _ _ _ => true) t0 v0 ks e) := by
  induction ks generalizing t0 v0 with
  | nil =>
    rw [buildPeriods]
    by_cases ht : t0 < e
    · rw [if_pos ht]; simp
    · rw [if_neg ht]; simp
  | cons k rest ih =>
    obtain ⟨kt, kv⟩ := k
    rw [sortedPts_cons] at hs
    rw [buildPeriods, if_pos rfl]
    rw [List.chain'_cons']
    refine ⟨?_, ih kt kv (fun q hq => hub q (List.mem_cons_of_mem _ hq)) hs.2⟩
    intro b hb
    cases rest with
    | nil =>
      rw [buildPeriods] at hb
      by_cases hke : kt < e
      · rw [if_pos hke] at hb; simp at hb; rw [← hb]
      · rw [if_neg hke] at hb; cases hb
    | cons r rr =>
      obtain ⟨rt, rv⟩ := r
      rw [buildPeriods, if_pos rfl] at hb
      simp at hb
      rw [← hb]

theorem buildPeriods_last {e : T} (ks : List (T × V)) (t0 : T) (v0 : V)
    (ht : t0 < e) (hub : ∀ k ∈ ks, k.1 ≤ e) (hs : SortedPts ks) :
    (buildPeriods (fun _ _ _ => true) t0 v0 ks e).getLast?.map
      (fun tr => tr.2.1) = some e := by
  induction ks generalizing t0 v0 with
  | nil => rw [buildPeriods, if_pos ht]; rfl
  | cons k rest ih =>
    obtain ⟨kt, kv⟩ := k
    rw [sortedPts_cons] at hs
    rcases lt_or_eq_of_le (hub (kt, kv) (List.mem_cons_self _ _)) with hke | hke
    · obtain ⟨b, tl, hbp⟩ := buildPeriods_head kt kv rest hke
      rw [buildPeriods, if_pos rfl, hbp, List.getLast?_cons_cons, ← hbp,
        ih kt kv hke (fun q hq => hub q (List.mem_cons_of_mem _ hq)) hs.2]
    · have hke' : kt = e := hke
      have hrest : rest = [] := by
        cases rest with
        | nil => rfl
        | cons r rr =>
          have h1 := hs.1 r (List.mem_cons_self _ _)
          have h2 := hub r (List.mem_cons_of_mem _ (List.mem_cons_self _ _))
          exact absurd (lt_of_lt_of_le h1 h2) (by rw [hke']; exact lt_irrefl e)
      subst hrest
      rw [buildPeriods, if_pos rfl, buildPeriods,
        if_neg (by rw [hke']; exact lt_irrefl e)]
      rw [hke']; rfl

theorem iterPeriods_eq {ts : TimeSeries T V} {s e : T} {v0 : V}
    (hse : s < e) (hv0 : ts.getPrevious s = some v0) :
    ts.iterPeriods s e (fun _ _ _ => true)
      = some (buildPeriods (fun _ _ _ => true) s v0
          (ts.points.filter (fun p => s < p.1 ∧ p.1 ≤ e)) e) := by
  rw [TimeSeries.iterPeriods, if_neg (not_le.mpr hse), hv0]

theorem window_filter_lt {ts : TimeSeries T V} {s e : T} :
    (ts.points.filter (fun p => s < p.1 ∧ p.1 ≤ e)).filter
        (fun k => k.1 < e)
      = ts.points.filter (fun p => s < p.1 ∧ p.1 < e) := by
  rw [List.filter_filter]
  apply List.filter_congr
  intro p hp
  by_cases h1 : s < p.1 <;> by_cases h2 : p.1 < e <;>
    simp [h1, h2, le_of_lt]

/-- C2 (amended): on a sorted series with a resolvable value at `start` and
`start < end`, `iterperiods(start, end)` with the accept-all predicate tiles
`[start, end]`: the first triple starts at `start`; the subsequent start
times are exactly the recorded keys strictly inside `(start, end)` (a key
equal to `end` does not start a triple of its own); each triple ends at the
next triple's start, the final one at `end`; each value is
`get(t0, 'previous')`. -/
theorem claimC2_iterperiods (ts : TimeSeries T V) (s e : T) (v0 : V)
    (hs : SortedPts ts.points) (hse : s < e)
    (hv0 : ts.getPrevious s = some v0) :
    ∃ trips, ts.iterPeriods s e (fun _ _ _ => true) = some trips ∧
      trips.map (fun tr => tr.1)
        = s :: (ts.points.filter
            (fun p => s < p.1 ∧ p.1 < e)).map Prod.fst ∧
      List.Chain' (fun a b => a.2.1 = b.1) trips ∧
      trips.getLast?.map (fun tr => tr.2.1) = some e ∧
      (∀ tr ∈ trips, ts.getPrevious tr.1 = some tr.2.2) := by
  have hsk : SortedPts
      (ts.points.filter (fun p => s < p.1 ∧ p.1 ≤ e)) :=
    List.Pairwise.sublist (List.filter_sublist _) hs
  have hub : ∀ k ∈ ts.points.filter (fun p => s < p.1 ∧ p.1 ≤ e),
      k.1 ≤ e := fun k hk => (mem_window.mp hk).2.2
  refine ⟨_, iterPeriods_eq hse hv0, ?_,
    buildPeriods_chain _ s v0 hub hsk,
    buildPeriods_last _ s v0 hse hub hsk, ?_⟩
  · rw [buildPeriods_map_fst _ s v0 hse hub hsk, window_filter_lt]
  · intro tr htr
    rcases buildPeriods_mem _ s v0 hub hsk tr htr with ⟨h1, h2⟩ | h
    · rw [h1, h2]; exact hv0
    · have := mem_window.mp h
      exact getPrevious_key hs this.1

theorem claimC2_witness :
    (exC2w.iterPeriods 0 3 (fun _ _ _ => true)).map
        (fun trips => trips.map (fun tr => tr.1))
      = some [0, 1, 2] := by
  obtain ⟨trips, h1, h2, h3, h4, h5⟩ :=
    claimC2_iterperiods exC2w 0 3 0 (by decide) (by decide) (by decide)
  rw [h1, Option.map_some', h2]
  decide

/-- C2 is refuted as stated: over `[1, 2]` on `[(0,1),(2,3)]` the recorded
key `2` is strictly greater than `start` and `≤ end`, yet it starts no
triple: the subsequent `t0` values are not the keys of `(start, end]`. -/
theorem claimC2_counterexample :
    exC2.iterPeriods 1 2 (fun _ _ _ => true)
      = some [((1 : ℚ), (2 : ℚ), (1 : ℚ))] ∧
    (exC2.points.filter (fun p => 1 < p.1 ∧ p.1 ≤ 2)).map Prod.fst
      = [2] ∧
    ¬ ([((1 : ℚ), (2 : ℚ), (1 : ℚ))].map (fun tr => tr.1)
        = 1 :: (exC2.points.filter
            (fun p => 1 < p.1 ∧ p.1 ≤ 2)).map Prod.fst) := by
  refine ⟨by decide, by decide, by decide⟩

/-! ### Folding deletions over the period list -/

theorem mem_of_getLast?_eq {α : Type} {l : List α} {a : α}
    (h : l.getLast? = some a) : a ∈ l := by
  induction l with
  | nil => cases h
  | cons b rest ih =>
    cases rest with
    | nil =>
      simp at h
      exact h ▸ List.mem_cons_self _ _
    | cons c rr =>
      rw [List.getLast?_cons_cons] at h
      exact List.mem_cons_of_mem _ (ih h)

theorem sorted_getLast_max {l : List T}
    (hl : l.Pairwise (fun a b => a < b)) {x y : T}
    (hx : x ∈ l) (hy : l.getLast? = some y) : x ≤ y := by
  induction l with
  | nil => cases hx
  | cons a rest ih =>
    rw [List.pairwise_cons] at hl
    cases rest with
    | nil =>
      simp at hx hy
      rw [hx, ← hy]
    | cons b rr =>
      rw [List.getLast?_cons_cons] at hy
      rcases List.mem_cons.mp hx with rfl | hx
      · exact le_of_lt (hl.1 y (mem_of_getLast?_eq hy))
      · exact ih hl.2 hx hy

theorem remove_of_mem {ts : TimeSeries T V} {t : T}
    (h : t ∈ ts.points.map Prod.fst) :
    ts.remove t = some { ts with points := delKey ts.points t } := by
  rw [TimeSeries.remove, if_pos]
  rw [List.any_eq_true]
  obtain ⟨p, hp, hpe⟩ := List.mem_map.mp h
  exact ⟨p, hp, decide_eq_true hpe⟩

theorem foldlM_remove_eq (trips : List (T × T × V)) :
    ∀ (pts : List (T × V)) (df : Default V),
    (∀ tr ∈ trips, tr.1 ∈ pts.map Prod.fst) →
    ((trips.map (fun tr => tr.1)).Nodup) →
    trips.foldlM (fun acc trip => acc.remove trip.1)
        (TimeSeries.mk pts df)
      = some (TimeSeries.mk
          (pts.filter (fun p => ¬ p.1 ∈ trips.map (fun tr => tr.1)))
          df) := by
  induction trips with
  | nil =>
    intro pts df _ _
    simp [List.foldlM]
  | cons tr trips ih =>
    intro pts df hmem hnd
    rw [List.foldlM_cons,
      remove_of_mem (hmem tr (List.mem_cons_self _ _))]
    have hhead : ¬ tr.1 ∈ trips.map (fun tr => tr.1) :=
      (List.nodup_cons.mp hnd).1
    have h1 : ∀ tr2 ∈ trips, tr2.1 ∈ (delKey pts tr.1).map Prod.fst := by
      intro tr2 htr2
      obtain ⟨p, hp, hpe⟩ := List.mem_map.mp
        (hmem tr2 (List.mem_cons_of_mem _ htr2))
      refine List.mem_map.mpr ⟨p, mem_delKey.mpr ⟨hp, ?_⟩, hpe⟩
      rw [hpe]
      intro hc
      exact hhead (hc ▸ List.mem_map.mpr ⟨tr2, htr2, rfl⟩)
    have hbind : (some (TimeSeries.mk (delKey pts tr.1) df) >>=
        fun acc => trips.foldlM (fun acc trip => acc.remove trip.1) acc)
        = trips.foldlM (fun acc trip => acc.remove trip.1)
            (TimeSeries.mk (delKey pts tr.1) df) := rfl
    show (some (TimeSeries.mk (delKey pts tr.1) df) >>= _) = _
    rw [hbind, ih (delKey pts tr.1) df h1 (List.nodup_cons.mp hnd).2]
    simp only [Option.some.injEq, TimeSeries.mk.injEq]
    refine ⟨?_, trivial⟩
    rw [delKey, List.filter_filter]
    apply List.filter_congr
    intro p hp
    by_cases hp1 : p.1 = tr.1 <;>
      by_cases hp2 : p.1 ∈ trips.map (fun tr => tr.1) <;>
        simp [hp1, hp2]

theorem foldl_del_eq (trips : List (T × T × V)) :
    ∀ (pts : List (T × V)) (df : Default V),
    trips.foldl (fun acc trip =>
        { acc with points := delKey acc.points trip.1 })
        (TimeSeries.mk pts df)
      = TimeSeries.mk
          (pts.filter (fun p => ¬ p.1 ∈ trips.map (fun tr => tr.1)))
          df := by
  induction trips with
  | nil =>
    intro pts df
    simp
  | cons tr trips ih =>
    intro pts df
    rw [List.foldl_cons]
    show trips.foldl _ (TimeSeries.mk (delKey pts tr.1) df) = _
    rw [ih]
    simp only [TimeSeries.mk.injEq]
    refine ⟨?_, trivial⟩
    rw [delKey, List.filter_filter]
    apply List.filter_congr
    intro p hp
    by_cases hp1 : p.1 = tr.1 <;>
      by_cases hp2 : p.1 ∈ trips.map (fun tr => tr.1) <;>
        simp [hp1, hp2]

/-! ### The interval write -/

theorem mem_window_lt {ts : TimeSeries T V} {s e : T} {k : T × V} :
    k ∈ ts.points.filter (fun p => s < p.1 ∧ p.1 < e) ↔
      k ∈ ts.points ∧ s < k.1 ∧ k.1 < e := by
  simp [List.mem_filter]

theorem set_false_eq (ts : TimeSeries T V) (t : T) (v : V) :
    ts.set t v false = TimeSeries.mk (setKey ts.points t v) ts.dflt := by
  rw [TimeSeries.set, if_pos (by simp)]

/-- C1 (amended): with `s < e` on a sorted non-floating series,
`set_interval(s, e, v)` succeeds and leaves `get(t, 'previous') = v` for
every `t ∈ [s, e)`; and whenever `e` is NOT a recorded key, `get(e)` keeps
its pre-call value.  (When `e` is a recorded key the call overwrites its
value with the last period's value, so the preservation clause must exclude
that case.) -/
theorem claimC1_set_interval (ts : TimeSeries T V) (s e : T) (v : V)
    (hs : SortedPts ts.points) (hse : s < e) (hnf : ts.isFloating = false) :
    ∃ ts2, ts.setInterval s e v false = some ts2 ∧
      (∀ t, s ≤ t → t < e → ts2.getPrevious t = some v) ∧
      (¬ e ∈ ts.points.map Prod.fst →
        ts2.getPrevious e = ts.getPrevious e) := by
  obtain ⟨v0, hv0⟩ : ∃ w, ts.getPrevious s = some w := by
    cases hg : ts.getPrevious s with
    | none =>
      have := (getPrevious_none_iff ts s).mp hg
      rw [this] at hnf; cases hnf
    | some w => exact ⟨w, rfl⟩
  have hsk : SortedPts (ts.points.filter (fun p => s < p.1 ∧ p.1 ≤ e)) :=
    List.Pairwise.sublist (List.filter_sublist _) hs
  have hub : ∀ k ∈ ts.points.filter (fun p => s < p.1 ∧ p.1 ≤ e),
      k.1 ≤ e := fun k hk => (mem_window.mp hk).2.2
  obtain ⟨b, tl, hcons⟩ :=
    buildPeriods_head s v0
      (ts.points.filter (fun p => s < p.1 ∧ p.1 ≤ e)) hse
  have hmap := buildPeriods_map_fst
    (ts.points.filter (fun p => s < p.1 ∧ p.1 ≤ e)) s v0 hse hub hsk
  rw [hcons, window_filter_lt] at hmap
  simp only [List.map_cons, List.cons.injEq] at hmap
  have htl : tl.map (fun tr => tr.1)
      = (ts.points.filter (fun p => s < p.1 ∧ p.1 < e)).map Prod.fst :=
    hmap.2
  have hinner_mem : ∀ q ∈ ts.points, s < q.1 → q.1 < e →
      q.1 ∈ tl.map (fun tr => tr.1) := by
    intro q hq h1 h2
    rw [htl]
    exact List.mem_map.mpr ⟨q, mem_window_lt.mpr ⟨hq, h1, h2⟩, rfl⟩
  have htl_gt : ∀ x ∈ tl.map (fun tr => tr.1), s < x := by
    intro x hx
    rw [htl] at hx
    obtain ⟨q, hq, rfl⟩ := List.mem_map.mp hx
    exact (mem_window_lt.mp hq).2.1
  have htl_pair : (tl.map (fun tr => tr.1)).Pairwise (fun a c => a < c) := by
    rw [htl, List.pairwise_map]
    exact List.Pairwise.sublist (List.filter_sublist _) hs
  have hnd : (tl.map (fun tr => tr.1)).Nodup :=
    htl_pair.imp ne_of_lt
  have hm : ∀ tr ∈ tl, tr.1 ∈ (setKey ts.points s v).map Prod.fst := by
    intro tr htr
    have hx : tr.1 ∈ tl.map (fun tr => tr.1) :=
      List.mem_map.mpr ⟨tr, htr, rfl⟩
    rw [htl] at hx
    obtain ⟨q, hq, hqe⟩ := List.mem_map.mp hx
    have hq2 := mem_window_lt.mp hq
    refine List.mem_map.mpr ⟨q, (mem_setKey hs).mpr
      (Or.inr ⟨hq2.1, ne_of_gt hq2.2.1⟩), hqe⟩
  have hfold := foldlM_remove_eq tl (setKey ts.points s v) ts.dflt hm hnd
  have hcomp : ts.setInterval s e v false
      = some (TimeSeries.mk
          (setKey ((setKey ts.points s v).filter
            (fun p => ¬ p.1 ∈ tl.map (fun tr => tr.1))) e
            ((tl.getLastD ((s, b, v0) : T × T × V)).2.2))
          ts.dflt) := by
    rw [TimeSeries.setInterval, iterPeriods_eq hse hv0, hcons]
    show (tl.foldlM (fun acc trip => acc.remove trip.1)
        (ts.set s v false) >>= fun ts2 =>
          some (ts2.set e (tl.getLastD ((s, b, v0) : T × T × V)).2.2 false))
      = _
    rw [set_false_eq ts s v, hfold]
    show some ((TimeSeries.mk ((setKey ts.points s v).filter
        (fun p => ¬ p.1 ∈ tl.map (fun tr => tr.1))) ts.dflt).set e
        (tl.getLastD ((s, b, v0) : T × T × V)).2.2 false) = _
    rw [set_false_eq]
  have hP2s : SortedPts ((setKey ts.points s v).filter
      (fun p => ¬ p.1 ∈ tl.map (fun tr => tr.1))) :=
    List.Pairwise.sublist (List.filter_sublist _) (sortedPts_setKey hs)
  have hs2 : SortedPts (setKey ((setKey ts.points s v).filter
      (fun p => ¬ p.1 ∈ tl.map (fun tr => tr.1))) e
      ((tl.getLastD ((s, b, v0) : T × T × V)).2.2)) :=
    sortedPts_setKey hP2s
  have hsv_mem : ((s, v) : T × V) ∈ (setKey ts.points s v).filter
      (fun p => ¬ p.1 ∈ tl.map (fun tr => tr.1)) := by
    refine List.mem_filter.mpr ⟨(mem_setKey hs).mpr (Or.inl rfl), ?_⟩
    refine decide_eq_true ?_
    intro hc
    exact absurd (htl_gt s hc) (lt_irrefl s)
  refine ⟨_, hcomp, ?_, ?_⟩
  · intro t hst hte
    refine getPrevious_eq_of (s, v) hs2 ?_ hst ?_
    · exact (mem_setKey hP2s).mpr
        (Or.inr ⟨hsv_mem, ne_of_lt (lt_of_le_of_lt hst hte)⟩)
    · intro q hq hqt
      by_contra hqs
      push_neg at hqs
      rcases (mem_setKey hP2s).mp hq with rfl | ⟨hq2, hqe⟩
      · exact absurd hqt (not_le.mpr hte)
      · have hq3 := List.mem_filter.mp hq2
        rcases (mem_setKey hs).mp hq3.1 with rfl | ⟨hq4, hq5⟩
        · exact absurd hqs (lt_irrefl s)
        · have hmem2 := hinner_mem q hq4 hqs (lt_of_le_of_lt hqt hte)
          exact (of_decide_eq_true hq3.2) hmem2
  · intro he
    have h2e : TimeSeries.getPrevious (TimeSeries.mk
        (setKey ((setKey ts.points s v).filter
          (fun p => ¬ p.1 ∈ tl.map (fun tr => tr.1))) e
          ((tl.getLastD ((s, b, v0) : T × T × V)).2.2)) ts.dflt) e
        = some (tl.getLastD ((s, b, v0) : T × T × V)).2.2 :=
      getPrevious_eq_of
        (e, (tl.getLastD ((s, b, v0) : T × T × V)).2.2)
        hs2 ((mem_setKey hP2s).mpr (Or.inl rfl)) le_rfl
        (fun q hq hqe => hqe)
    rw [h2e]
    have hLmem : tl.getLastD ((s, b, v0) : T × T × V)
        ∈ (s, b, v0) :: tl :=
      mem_of_getLast?_eq (getLast?_cons_getLastD _ _)
    have hLcase := buildPeriods_mem _ s v0 hub hsk
      (tl.getLastD ((s, b, v0) : T × T × V)) (hcons ▸ hLmem)
    have hlast1 : (s :: tl.map (fun tr => tr.1)).getLast?
        = some (tl.getLastD ((s, b, v0) : T × T × V)).1 := by
      have h1 : (((s, b, v0) :: tl).map (fun tr => tr.1)).getLast?
          = some (tl.getLastD ((s, b, v0) : T × T × V)).1 := by
        rw [List.getLast?_map, getLast?_cons_getLastD]
        rfl
      simpa using h1
    rcases hLcase with ⟨hLs, hLv⟩ | hLks
    · have htlnil : tl.map (fun tr => tr.1) = [] := by
        by_contra hne
        obtain ⟨x, xs, hxs⟩ := List.exists_cons_of_ne_nil hne
        rw [hxs, List.getLast?_cons_cons] at hlast1
        have hxmem := mem_of_getLast?_eq hlast1
        rw [hLs] at hxmem
        rw [← hxs] at hxmem
        exact absurd (htl_gt s hxmem) (lt_irrefl s)
      have hiff : ∀ p ∈ ts.points, (p.1 ≤ e ↔ p.1 ≤ s) := by
        intro p hp
        constructor
        · intro hpe
          by_contra hps
          push_neg at hps
          have hpne : p.1 ≠ e := by
            intro hc
            exact he (hc ▸ List.mem_map.mpr ⟨p, hp, rfl⟩)
          have := hinner_mem p hp hps (lt_of_le_of_ne hpe hpne)
          rw [htlnil] at this
          cases this
        · intro hps
          exact le_trans hps (le_of_lt hse)
      have hge : ts.getPrevious e = ts.getPrevious s := by
        unfold TimeSeries.getPrevious
        rw [lastLe_congr hiff]
      rw [hge, hv0, hLv]
    · have hw := mem_window.mp hLks
      have hget := getPrevious_eq_of
        ((tl.getLastD ((s, b, v0) : T × T × V)).1,
         (tl.getLastD ((s, b, v0) : T × T × V)).2.2)
        hs hw.1 hw.2.2 ?_
      · exact hget.symm
      · intro q hq hqe
        rcases le_or_lt q.1 s with hqs | hqs
        · exact le_of_lt (lt_of_le_of_lt hqs hw.2.1)
        · have hqne : q.1 ≠ e := by
            intro hc
            exact he (hc ▸ List.mem_map.mpr ⟨q, hq, rfl⟩)
          have hqtl := hinner_mem q hq hqs (lt_of_le_of_ne hqe hqne)
          refine sorted_getLast_max ?_
            (List.mem_cons_of_mem _ hqtl) hlast1
          rw [List.pairwise_cons]
          exact ⟨htl_gt, htl_pair⟩

/-- C1 is refuted as stated: `set_interval(1, 2, 9)` on `[(0,5),(2,7)]`
(valid: `1 < 2`, series non-floating) rewrites the recorded key at `e = 2`
with the last period's value `5`, so `get(2)` changes from `7` to `5`. -/
theorem claimC1_counterexample :
    (1 : ℚ) < 2 ∧ exC1.isFloating = false ∧
    exC1.getPrevious 2 = some 7 ∧
    exC1.setInterval 1 2 9 false
      = some ⟨[(0, 5), (1, 9), (2, 5)], Default.explicit 0⟩ ∧
    ¬ ((exC1.setInterval 1 2 9 false).map (fun r => r.getPrevious 2)
        = some (exC1.getPrevious 2)) := by
  refine ⟨by decide, by decide, by decide, by decide, by decide⟩

theorem claimC1_witness :
    (exC1w.setInterval 1 (mkRat 5 2) 9 false).map
        (fun r => r.getPrevious 2) = some (some 9) ∧
    (exC1w.setInterval 1 (mkRat 5 2) 9 false).map
        (fun r => r.getPrevious (mkRat 5 2))
      = some (exC1w.getPrevious (mkRat 5 2)) := by
  obtain ⟨ts2, h1, h2, h3⟩ := claimC1_set_interval exC1w 1 (mkRat 5 2) 9
    (by decide) (by decide) (by decide)
  rw [h1, Option.map_some', Option.map_some']
  constructor
  · rw [h2 2 (by decide) (by decide)]
  · rw [h3 (by decide)]

/-! ### The interval delete -/

/-- C3 (amended): with `s < e` on a sorted series with an explicit default,
`remove_points_from_interval(s, e)` succeeds, leaves `get(t, 'previous')`
unchanged for every `t < s`, and the only keys it removes lie in `[s, e)`
(nothing is added, and every point outside `[s, e)` survives).  The claim's
clause for `t ≥ e` is dropped: deleting the last key inside the interval
changes the value on `[e, next key)`, as the counterexample shows; and for
an `ExtendBack` default even `t < s` can change when the first key is
removed. -/
theorem claimC3_remove_interval (ts : TimeSeries T V) (s e : T) (d : V)
    (hs : SortedPts ts.points) (hse : s < e)
    (hd : ts.dflt = Default.explicit d) :
    ∃ r, ts.removePointsFromInterval s e = some r ∧
      (∀ t, t < s → r.getPrevious t = ts.getPrevious t) ∧
      (∀ p ∈ r.points, p ∈ ts.points) ∧
      (∀ p ∈ ts.points, p.1 < s ∨ e ≤ p.1 → p ∈ r.points) := by
  have hnf : ts.isFloating = false := by
    simp [TimeSeries.isFloating, hd]
  obtain ⟨v0, hv0⟩ : ∃ w, ts.getPrevious s = some w := by
    cases hg : ts.getPrevious s with
    | none =>
      have := (getPrevious_none_iff ts s).mp hg
      rw [this] at hnf; cases hnf
    | some w => exact ⟨w, rfl⟩
  have hsk : SortedPts (ts.points.filter (fun p => s < p.1 ∧ p.1 ≤ e)) :=
    List.Pairwise.sublist (List.filter_sublist _) hs
  have hub : ∀ k ∈ ts.points.filter (fun p => s < p.1 ∧ p.1 ≤ e),
      k.1 ≤ e := fun k hk => (mem_window.mp hk).2.2
  have hmap := buildPeriods_map_fst
    (ts.points.filter (fun p => s < p.1 ∧ p.1 ≤ e)) s v0 hse hub hsk
  rw [window_filter_lt] at hmap
  have htk : ∀ x ∈ (buildPeriods (fun _ _ _ => true) s v0
      (ts.points.filter (fun p => s < p.1 ∧ p.1 ≤ e)) e).map
        (fun tr => tr.1), s ≤ x ∧ x < e := by
    intro x hx
    rw [hmap] at hx
    rcases List.mem_cons.mp hx with rfl | hx
    · exact ⟨le_rfl, hse⟩
    · obtain ⟨q, hq, rfl⟩ := List.mem_map.mp hx
      have hq2 := mem_window_lt.mp hq
      exact ⟨le_of_lt hq2.2.1, hq2.2.2⟩
  have hcomp : ts.removePointsFromInterval s e
      = some (TimeSeries.mk
          (ts.points.filter (fun p =>
            ¬ p.1 ∈ (buildPeriods (fun _ _ _ => true) s v0
              (ts.points.filter (fun p => s < p.1 ∧ p.1 ≤ e)) e).map
                (fun tr => tr.1)))
          ts.dflt) := by
    rw [TimeSeries.removePointsFromInterval, iterPeriods_eq hse hv0]
    show some ((buildPeriods (fun _ _ _ => true) s v0
        (ts.points.filter (fun p => s < p.1 ∧ p.1 ≤ e)) e).foldl
          (fun acc trip => { acc with points := delKey acc.points trip.1 })
          (TimeSeries.mk ts.points ts.dflt)) = _
    rw [foldl_del_eq]
  refine ⟨_, hcomp, ?_, ?_, ?_⟩
  · intro t hts
    have hfl : lastLe t (ts.points.filter (fun p =>
        ¬ p.1 ∈ (buildPeriods (fun _ _ _ => true) s v0
          (ts.points.filter (fun p => s < p.1 ∧ p.1 ≤ e)) e).map
            (fun tr => tr.1))) = lastLe t ts.points := by
      refine lastLe_filter_of hs (fun p hp hple => decide_eq_true ?_)
      intro hc
      exact absurd (lt_of_le_of_lt hple hts) (not_lt.mpr (htk p.1 hc).1)
    unfold TimeSeries.getPrevious
    rw [hfl]
    have hdv : (TimeSeries.mk
        (ts.points.filter (fun p =>
          ¬ p.1 ∈ (buildPeriods (fun _ _ _ => true) s v0
            (ts.points.filter (fun p => s < p.1 ∧ p.1 ≤ e)) e).map
              (fun tr => tr.1)))
        ts.dflt).defaultVal = ts.defaultVal := by
      unfold TimeSeries.defaultVal
      rw [hd]
    rw [hdv]
  · intro p hp
    exact (List.filter_sublist _).mem hp
  · intro p hp hout
    refine List.mem_filter.mpr ⟨hp, decide_eq_true ?_⟩
    intro hc
    have := htk p.1 hc
    rcases hout with h | h
    · exact absurd h (not_lt.mpr this.1)
    · exact absurd this.2 (not_lt.mpr h)

/-- C3 is refuted as stated: on the repository's own test scenario
(`test_remove_points_from_interval`), `del[3.5:4.5]` on
`[(0,0),(1,2),(3,1),(4,0)]` removes the key `4`, and `get(5)` — with
`5 ≥ e = 4.5` — changes from `0` to `1`. -/
theorem claimC3_counterexample :
    mkRat 9 2 ≤ (5 : ℚ) ∧
    exC3.getPrevious 5 = some 0 ∧
    exC3.removePointsFromInterval (mkRat 7 2) (mkRat 9 2)
      = some ⟨[(0, 0), (1, 2), (3, 1)], Default.explicit 0⟩ ∧
    ¬ ((exC3.removePointsFromInterval (mkRat 7 2) (mkRat 9 2)).map
        (fun r => r.getPrevious 5) = some (exC3.getPrevious 5)) := by
  refine ⟨by decide, by decide, by decide, by decide⟩

theorem claimC3_witness :
    (exC3w.removePointsFromInterval 1 3).map
        (fun r => r.getPrevious (mkRat 1 2))
      = some (exC3w.getPrevious (mkRat 1 2)) := by
  obtain ⟨r, h1, h2, h3, h4⟩ :=
    claimC3_remove_interval exC3w 1 3 9 (by decide) (by decide) (by decide)
  rw [h1, Option.map_some', h2 (mkRat 1 2) (by decide)]

/-- C4: scenario S3 holds literally on the embedding.  From
`[(0,0),(1,2),(3,1),(4,0)]` with explicit default `0`: after
`del[3.5:4.5]`, `get(5) = 1`; after `set(4, 0)` and `del[3:4.5]`,
`get(5) = 2`; after `set(3, 1)`, `set(4, 0)` and `del[3.5:4]`,
`get(5) = 0`. -/
theorem claimC4_scenario_s3 :
    exC4.removePointsFromInterval (mkRat 7 2) (mkRat 9 2) = some exC4a ∧
    exC4a.getPrevious 5 = some 1 ∧
    (exC4a.set 4 0 false).removePointsFromInterval 3 (mkRat 9 2)
      = some exC4b ∧
    exC4b.getPrevious 5 = some 2 ∧
    ((exC4b.set 3 1 false).set 4 0 false).removePointsFromInterval
        (mkRat 7 2) 4 = some exC4c ∧
    exC4c.getPrevious 5 = some 0 := by
  refine ⟨by decide, by decide, by decide, by decide, by decide, by decide⟩

/-! ### The n-ary merge: singleton input -/

theorem mergeLoop_nil_queue (n : ℕ) (state : List V) :
    mergeLoop n ([] : List (MergeEntry T V)) state = [] := by
  cases n <;> rfl

theorem mergeLoop_single (cursor : List (T × V)) :
    ∀ (n : ℕ) (t : T) (v w : V),
    cursor.length ≤ n →
    mergeLoop (n + 1) [(t, 0, v, cursor)] [w]
      = ((t, v) :: cursor).map (fun p => (p.1, 0, [p.2])) := by
  induction cursor with
  | nil =>
    intro n t v w h
    show (t, 0, [w].set 0 v) :: mergeLoop n [] [v] = _
    rw [mergeLoop_nil_queue]
    rfl
  | cons c cs ih =>
    intro n t v w h
    cases n with
    | zero => simp at h
    | succ m =>
      show (t, 0, [w].set 0 v) ::
          mergeLoop (m + 1) [(c.1, 0, c.2, cs)] [v] = _
      rw [show ([w].set 0 v) = [v] from rfl,
        ih m c.1 c.2 v (Nat.le_of_succ_le_succ h)]
      rfl

theorem iterMergeRaw_single (a : TimeSeries T V) (d : V)
    (hd : a.defaultVal = some d) :
    iterMergeRaw [a] = some (a.points.map (fun p => (p.1, 0, [p.2]))) := by
  rw [iterMergeRaw,
    show List.mapM TimeSeries.defaultVal [a] = some [d] by
      simp [List.mapM, List.mapM.loop, hd]]
  show some (mergeLoop (([a].map (fun ts => ts.points.length)).sum)
    (seedQueue 0 [a]) [d]) = _
  cases hp : a.points with
  | nil =>
    rw [show seedQueue 0 [a] = [] by rw [seedQueue, hp]; rfl]
    rw [mergeLoop_nil_queue]
    rfl
  | cons q qs =>
    rw [show seedQueue 0 [a] = [(q.1, 0, q.2, qs)] by
      rw [seedQueue, hp]; rfl]
    rw [show ([a].map (fun ts => ts.points.length)).sum
        = qs.length + 1 by simp [hp]]
    rw [mergeLoop_single qs qs.length q.1 q.2 d le_rfl]

theorem collapseLast_of_chain {S : Type} (l : List (T × S))
    (h : List.Chain' (fun a b => a.1 < b.1) l) : collapseLast l = l := by
  induction l with
  | nil => rfl
  | cons x rest ih =>
    cases rest with
    | nil => rfl
    | cons y rr =>
      rw [List.chain'_cons] at h
      rw [collapseLast, if_neg (ne_of_lt h.1), ih h.2]

theorem getPrevious_of_last {ts : TimeSeries T V} {tp : T} {vp : V} {t : T}
    (hs : SortedPts ts.points) (hl : ts.points.getLast? = some (tp, vp))
    (ht : tp ≤ t) : ts.getPrevious t = some vp := by
  refine getPrevious_eq_of (tp, vp) hs (mem_of_getLast?_eq hl) ht ?_
  intro q hq hqt
  have hqm : q.1 ∈ ts.points.map Prod.fst := List.mem_map.mpr ⟨q, hq, rfl⟩
  refine sorted_getLast_max ?_ hqm ?_
  · rw [List.pairwise_map]
    exact hs
  · rw [List.getLast?_map, hl]
    rfl

theorem setKey_append {l : List (T × V)} {t : T} {v : V}
    (h : ∀ p ∈ l, p.1 < t) : setKey l t v = l ++ [(t, v)] := by
  induction l with
  | nil => rfl
  | cons q rest ih =>
    have hq := h q (List.mem_cons_self _ _)
    rw [setKey, if_neg (not_lt.mpr (le_of_lt hq)), if_neg (ne_of_gt hq),
      ih (fun p hp => h p (List.mem_cons_of_mem _ hp))]
    rfl

theorem foldCompact_go (L : List (T × V)) :
    ∀ (acc : List (T × V)) (df : Default V) (tp : T) (vp : V),
    SortedPts acc → acc.getLast? = some (tp, vp) →
    (∀ p ∈ L, tp < p.1) → SortedPts L →
    (L.foldl (fun acc2 p => acc2.set p.1 p.2 true)
        (TimeSeries.mk acc df)).points
      = acc ++ compactList (some vp) L := by
  induction L with
  | nil =>
    intro acc df tp vp _ _ _ _
    simp [compactList]
  | cons p rest ih =>
    intro acc df tp vp hsa hlast hgt hsl
    obtain ⟨pt, pv⟩ := p
    rw [sortedPts_cons] at hsl
    have hne : acc ≠ [] := by
      intro hc
      rw [hc] at hlast
      cases hlast
    have hget : (TimeSeries.mk acc df).getPrevious pt = some vp :=
      getPrevious_of_last hsa hlast
        (le_of_lt (hgt (pt, pv) (List.mem_cons_self _ _)))
    rw [List.foldl_cons]
    by_cases hv : pv = vp
    · have hskip : (TimeSeries.mk acc df).set pt pv true
          = TimeSeries.mk acc df := by
        rw [TimeSeries.set, if_neg]
        simp only [Bool.not_true, Bool.or_false, Bool.or_eq_true,
          List.isEmpty_eq_true, decide_eq_true_eq, not_or, not_not]
        exact ⟨hne, by rw [hget, hv]⟩
      rw [hskip, compactList, if_pos (by rw [hv]),
        ih acc df tp vp hsa hlast
          (fun q hq => hgt q (List.mem_cons_of_mem _ hq)) hsl.2, hv]
    · have hklt : ∀ q ∈ acc, q.1 < pt := by
        intro q hq
        have hqm : q.1 ∈ acc.map Prod.fst := List.mem_map.mpr ⟨q, hq, rfl⟩
        have hle : q.1 ≤ tp := by
          refine sorted_getLast_max ?_ hqm ?_
          · rw [List.pairwise_map]
            exact hsa
          · rw [List.getLast?_map, hlast]
            rfl
        exact lt_of_le_of_lt hle (hgt (pt, pv) (List.mem_cons_self _ _))
      have hwrite : (TimeSeries.mk acc df).set pt pv true
          = TimeSeries.mk (acc ++ [(pt, pv)]) df := by
        rw [TimeSeries.set, if_pos]
        · rw [show (TimeSeries.mk acc df).points = acc from rfl,
            setKey_append hklt]
        · simp only [Bool.not_true, Bool.or_false, Bool.or_eq_true,
            List.isEmpty_eq_true, decide_eq_true_eq]
          refine Or.inr ?_
          rw [hget]
          intro hc
          exact hv (Option.some.inj hc).symm
      rw [hwrite, compactList,
        if_neg (fun hc => hv (Option.some.inj hc).symm),
        ih (acc ++ [(pt, pv)]) df pt pv ?_ (List.getLast?_concat _)
          (fun q hq => hsl.1 q hq) hsl.2,
        List.append_assoc]
      · rfl
      · rw [SortedPts, List.pairwise_append]
        refine ⟨hsa, List.pairwise_singleton _ _, ?_⟩
        intro q hq x hx
        rw [List.mem_singleton] at hx
        rw [hx]
        exact hklt q hq

theorem foldCompact_eq (L : List (T × V)) (df : Default V)
    (hsl : SortedPts L) :
    (L.foldl (fun acc p => acc.set p.1 p.2 true)
        (TimeSeries.mk [] df)).points = compactList none L := by
  cases L with
  | nil => rfl
  | cons p rest =>
    obtain ⟨pt, pv⟩ := p
    rw [sortedPts_cons] at hsl
    rw [List.foldl_cons]
    have hw : (TimeSeries.mk ([] : List (T × V)) df).set pt pv true
        = TimeSeries.mk [(pt, pv)] df := by
      rw [TimeSeries.set, if_pos (by simp)]
      rfl
    rw [hw,
      foldCompact_go rest [(pt, pv)] df pt pv
        (List.pairwise_singleton _ _) rfl hsl.1 hsl.2,
      compactList, if_neg (by simp)]
    rfl

theorem compactList_map_wrap :
    ∀ (prev : Option V) (L : List (T × V)),
    compactList (prev.map (fun v => [v]))
        (L.map (fun p => (p.1, [p.2])))
      = (compactList prev L).map (fun p => (p.1, [p.2])) := by
  intro prev L
  induction L generalizing prev with
  | nil => cases prev <;> rfl
  | cons p rest ih =>
    obtain ⟨pt, pv⟩ := p
    cases prev with
    | none =>
      rw [List.map_cons]
      rw [show (Option.map (fun v => [v]) (none : Option V)) = none
        from rfl]
      rw [compactList, if_neg (by simp), compactList, if_neg (by simp)]
      rw [List.map_cons]
      rw [show (some [pv] : Option (List V))
          = Option.map (fun v => [v]) (some pv) from rfl, ih (some pv)]
    | some w =>
      rw [List.map_cons,
        show (Option.map (fun v => [v]) (some w : Option V)) = some [w]
          from rfl]
      by_cases hw : w = pv
      · rw [compactList, if_pos (by rw [hw]), compactList,
          if_pos (by rw [hw]),
          show (some [pv] : Option (List V))
            = Option.map (fun v => [v]) (some pv) from rfl, ih (some pv)]
      · rw [compactList, if_neg (by simp [hw]), compactList,
          if_neg (by simp [hw]), List.map_cons,
          show (some [pv] : Option (List V))
            = Option.map (fun v => [v]) (some pv) from rfl, ih (some pv)]

/-- C7 (amended): merging a singleton list `[a]` of a sorted non-floating
series yields, instead of `a.items()` itself, the compacted items of `a`
with every value wrapped into a one-element state list: `merge` stores the
whole merged state list at each time and applies compact writes. -/
theorem claimC7_merge_singleton (a : TimeSeries T V)
    (hs : SortedPts a.points) (hnf : a.isFloating = false) :
    ∃ m, TimeSeries.merge [a] = some m ∧
      m.points = a.compactTS.points.map (fun p => (p.1, [p.2])) := by
  obtain ⟨d, hd⟩ : ∃ d, a.defaultVal = some d := by
    cases hg : a.defaultVal with
    | none =>
      exfalso
      rw [TimeSeries.defaultVal] at hg
      rw [TimeSeries.isFloating] at hnf
      cases hdf : a.dflt with
      | extendBack =>
        rw [hdf] at hg hnf
        rw [List.isEmpty_eq_false_iff_exists_mem] at hnf
        obtain ⟨p, hp⟩ := hnf
        obtain ⟨q, qs, hq⟩ := List.exists_cons_of_ne_nil
          (List.ne_nil_of_mem hp)
        rw [hq] at hg
        cases hg
      | explicit v =>
        rw [hdf] at hg
        cases hg
    | some w => exact ⟨w, rfl⟩
  have hmerge : TimeSeries.iterMerge [a]
      = some (a.points.map (fun p => (p.1, [p.2]))) := by
    rw [TimeSeries.iterMerge, if_neg (by simp),
      if_neg (by simp [hnf]), TimeSeries.iterMergeU,
      iterMergeRaw_single a d hd, Option.map_some', Option.map_some',
      List.map_map]
    rw [show ((fun x => (x.1, x.2.2)) ∘ (fun p => (p.1, 0, [p.2])))
        = (fun p : T × V => (p.1, [p.2])) from rfl]
    rw [collapseLast_of_chain]
    rw [List.chain'_map]
    exact List.Pairwise.chain' hs
  refine ⟨(a.points.map (fun p => (p.1, [p.2]))).foldl
      (fun acc p => acc.set p.1 p.2 true)
      (TimeSeries.mk [] Default.extendBack), ?_, ?_⟩
  · show (TimeSeries.iterMerge [a] >>= fun out => some (out.foldl
        (fun acc p => acc.set p.1 p.2 true)
        (TimeSeries.mk [] Default.extendBack))) = _
    rw [hmerge]
    rfl
  · rw [foldCompact_eq _ _ (by rw [SortedPts, List.pairwise_map]; exact hs)]
    rw [show (none : Option (List V))
        = Option.map (fun v => [v]) (none : Option V) from rfl,
      compactList_map_wrap]
    rfl

/-- C7 is refuted as stated: `merge([a])` on the non-floating
`a = [(0,1),(1,1)]` produces a single point `(0, [1])`: the values are
wrapped into state lists, and the default compact write drops the repeated
measurement, so `merge([a]).items()` cannot equal `a.items()` (even the
lengths differ). -/
theorem claimC7_counterexample :
    exC7.isFloating = false ∧
    TimeSeries.merge [exC7]
      = some ⟨[((0 : ℚ), [(1 : ℚ)])], Default.extendBack⟩ ∧
    exC7.points.length = 2 ∧
    (TimeSeries.merge [exC7]).map (fun m => m.points.length) = some 1 := by
  refine ⟨by decide, by decide, by decide, by decide⟩

theorem claimC7_witness :
    (TimeSeries.merge [exC7w]).map (fun m => m.points)
      = some [((0 : ℚ), [(1 : ℚ)]), (2, [5])] := by
  obtain ⟨m, h1, h2⟩ :=
    claimC7_merge_singleton exC7w (by decide) (by decide)
  rw [h1, Option.map_some', h2]
  decide

/-! ### The n-ary merge: ordering and tie-breaking -/

theorem entryLexLe_refl (a : T × ℕ) : entryLexLe a a :=
  Or.inr ⟨rfl, le_rfl⟩

theorem entryLexLe_trans {a b c : T × ℕ} (h1 : entryLexLe a b)
    (h2 : entryLexLe b c) : entryLexLe a c := by
  rcases h1 with h1 | ⟨h1, h1b⟩ <;> rcases h2 with h2 | ⟨h2, h2b⟩
  · exact Or.inl (lt_trans h1 h2)
  · exact Or.inl (h2 ▸ h1)
  · exact Or.inl (h1 ▸ h2)
  · exact Or.inr ⟨h1.trans h2, le_trans h1b h2b⟩

theorem entryLexLt_of_lt_of_le {a b c : T × ℕ} (h1 : entryLexLt a b)
    (h2 : entryLexLe b c) : entryLexLt a c := by
  rcases h1 with h1 | ⟨h1, h1b⟩ <;> rcases h2 with h2 | ⟨h2, h2b⟩
  · exact Or.inl (lt_trans h1 h2)
  · exact Or.inl (h2 ▸ h1)
  · exact Or.inl (h1 ▸ h2)
  · exact Or.inr ⟨h1.trans h2, lt_of_lt_of_le h1b h2b⟩

theorem entryLexLt_of_le_of_ne {a b : T × ℕ} (h1 : entryLexLe a b)
    (h2 : a.2 ≠ b.2) : entryLexLt a b := by
  rcases h1 with h1 | ⟨h1, h1b⟩
  · exact Or.inl h1
  · exact Or.inr ⟨h1, lt_of_le_of_ne h1b h2⟩

theorem popMin_eq_none {q : List (MergeEntry T V)} :
    popMin q = none ↔ q = [] := by
  constructor
  · intro h
    cases q with
    | nil => rfl
    | cons x xs =>
      rw [popMin] at h
      cases hrec : popMin xs <;> rw [hrec] at h
      · cases h
      · rename_i pr
        obtain ⟨m, rest⟩ := pr
        change (if x.1 < m.1 ∨ (x.1 = m.1 ∧ x.2.1 ≤ m.2.1)
          then some (x, xs) else some (m, x :: rest)) = none at h
        by_cases hc : x.1 < m.1 ∨ (x.1 = m.1 ∧ x.2.1 ≤ m.2.1)
        · rw [if_pos hc] at h; cases h
        · rw [if_neg hc] at h; cases h
  · rintro rfl
    rfl

theorem popMin_spec : ∀ {q : List (MergeEntry T V)}
    {e : MergeEntry T V} {rest : List (MergeEntry T V)},
    popMin q = some (e, rest) →
    (∃ l1 l2, q = l1 ++ e :: l2 ∧ rest = l1 ++ l2) ∧
    (∀ x ∈ q, entryLexLe (e.1, e.2.1) (x.1, x.2.1)) := by
  intro q
  induction q with
  | nil => intro e rest h; cases h
  | cons x xs ih =>
    intro e rest h
    rw [popMin] at h
    cases hrec : popMin xs <;> rw [hrec] at h
    · have hxs : xs = [] := popMin_eq_none.mp hrec
      simp only [Option.some.injEq, Prod.mk.injEq] at h
      obtain ⟨rfl, rfl⟩ := h
      subst hxs
      refine ⟨⟨[], [], rfl, rfl⟩, ?_⟩
      intro y hy
      rw [List.mem_singleton] at hy
      subst hy
      exact entryLexLe_refl _
    · rename_i pr
      obtain ⟨m, r⟩ := pr
      obtain ⟨⟨a, b, hq, hr⟩, hmin⟩ := ih hrec
      change (if x.1 < m.1 ∨ (x.1 = m.1 ∧ x.2.1 ≤ m.2.1)
        then some (x, xs) else some (m, x :: r)) = some (e, rest) at h
      by_cases hc : x.1 < m.1 ∨ (x.1 = m.1 ∧ x.2.1 ≤ m.2.1)
      · rw [if_pos hc] at h
        simp only [Option.some.injEq, Prod.mk.injEq] at h
        obtain ⟨rfl, rfl⟩ := h
        refine ⟨⟨[], xs, rfl, rfl⟩, ?_⟩
        intro y hy
        rcases List.mem_cons.mp hy with rfl | hy
        · exact entryLexLe_refl _
        · exact entryLexLe_trans
            (show entryLexLe (x.1, x.2.1) (m.1, m.2.1) from hc) (hmin y hy)
      · rw [if_neg hc] at h
        simp only [Option.some.injEq, Prod.mk.injEq] at h
        obtain ⟨rfl, rfl⟩ := h
        push_neg at hc
        have hxle : entryLexLe (m.1, m.2.1) (x.1, x.2.1) := by
          show m.1 < x.1 ∨ (m.1 = x.1 ∧ m.2.1 ≤ x.2.1)
          rcases lt_or_eq_of_le hc.1 with hlt | heq
          · exact Or.inl hlt
          · exact Or.inr ⟨heq, le_of_lt (hc.2 heq.symm)⟩
        refine ⟨⟨x :: a, b, by rw [hq]; rfl, by rw [hr]; rfl⟩, ?_⟩
        intro y hy
        rcases List.mem_cons.mp hy with rfl | hy
        · exact hxle
        · exact hmin y hy

theorem nodup_middle_erase {A B : List ℕ} {i : ℕ}
    (h : (A ++ i :: B).Nodup) : (A ++ B).Nodup ∧ ¬ i ∈ A ++ B := by
  have hperm : (A ++ i :: B).Perm (i :: (A ++ B)) :=
    List.perm_middle
  have h2 : (i :: (A ++ B)).Nodup := h.perm hperm
  rw [List.nodup_cons] at h2
  exact ⟨h2.2, h2.1⟩

theorem mergeLoop_sorted :
    ∀ (n : ℕ) (q : List (MergeEntry T V)) (state : List V),
    (∀ x ∈ q, List.Chain' (fun a b => a < b)
      (x.1 :: x.2.2.2.map Prod.fst)) →
    ((q.map (fun x => x.2.1)).Nodup) →
    List.Chain' entryLexLt
        ((mergeLoop n q state).map (fun y => (y.1, y.2.1))) ∧
    ∀ y ∈ mergeLoop n q state,
      ∃ x ∈ q, entryLexLe (x.1, x.2.1) (y.1, y.2.1) := by
  intro n
  induction n with
  | zero =>
    intro q state _ _
    exact ⟨List.chain'_nil, by intro y hy; cases hy⟩
  | succ m ih =>
    intro q state hch hnd
    cases hpop : popMin q with
    | none =>
      have hstep : mergeLoop (m + 1) q state = [] := by
        rw [mergeLoop, hpop]
      rw [hstep]
      exact ⟨List.chain'_nil, by intro y hy; cases hy⟩
    | some pr =>
      obtain ⟨⟨t, i, v, cursor⟩, rest⟩ := pr
      obtain ⟨⟨l1, l2, hq, hrest⟩, hmin⟩ := popMin_spec hpop
      have hemem : ((t, i, v, cursor) : MergeEntry T V) ∈ q := by
        rw [hq]
        exact List.mem_append_right _ (List.mem_cons_self _ _)
      have hrest_sub : ∀ x ∈ rest, x ∈ q := by
        intro x hx
        rw [hrest] at hx
        rw [hq]
        rcases List.mem_append.mp hx with hx | hx
        · exact List.mem_append_left _ hx
        · exact List.mem_append_right _ (List.mem_cons_of_mem _ hx)
      have hidx : ((l1.map (fun x => x.2.1)) ++ i ::
          (l2.map (fun x => x.2.1))).Nodup := by
        have : q.map (fun x => x.2.1)
            = l1.map (fun x => x.2.1) ++ i :: l2.map (fun x => x.2.1) := by
          rw [hq, List.map_append, List.map_cons]
        rw [this] at hnd
        exact hnd
      obtain ⟨hnd_rest, hi_rest⟩ := nodup_middle_erase hidx
      have hrest_map : rest.map (fun x => x.2.1)
          = l1.map (fun x => x.2.1) ++ l2.map (fun x => x.2.1) := by
        rw [hrest, List.map_append]
      have hi_not : ¬ i ∈ rest.map (fun x => x.2.1) := by
        rw [hrest_map]; exact hi_rest
      have hbound : ∀ x ∈ rest, entryLexLt (t, i) (x.1, x.2.1) := by
        intro x hx
        refine entryLexLt_of_le_of_ne (hmin x (hrest_sub x hx)) ?_
        intro hc
        refine hi_not ?_
        have hc2 : i = x.2.1 := hc
        rw [hc2]
        exact List.mem_map.mpr ⟨x, hx, rfl⟩
      cases hcur : cursor with
      | nil =>
        have hstep : mergeLoop (m + 1) q state
            = (t, i, state.set i v) :: mergeLoop m rest (state.set i v) := by
          rw [mergeLoop, hpop, hcur]
        obtain ⟨hch', hdom'⟩ := ih rest (state.set i v)
          (fun x hx => hch x (hrest_sub x hx))
          (by rw [hrest_map]; exact hnd_rest)
        rw [hstep]
        constructor
        · rw [List.map_cons]
          rw [List.chain'_cons']
          refine ⟨?_, hch'⟩
          intro z hz
          cases hout : mergeLoop m rest (state.set i v) with
          | nil => rw [hout] at hz; cases hz
          | cons y ys =>
            rw [hout] at hz
            simp only [List.map_cons, List.head?_cons,
              Option.mem_def, Option.some.injEq] at hz
            subst hz
            obtain ⟨x, hx, hle⟩ := hdom' y (hout ▸ List.mem_cons_self y ys)
            exact entryLexLt_of_lt_of_le (hbound x hx) hle
        · intro y hy
          rcases List.mem_cons.mp hy with rfl | hy
          · exact ⟨(t, i, v, cursor), hemem, entryLexLe_refl _⟩
          · obtain ⟨x, hx, hle⟩ := hdom' y hy
            exact ⟨x, hrest_sub x hx,
              entryLexLe_trans (Or.inr ⟨rfl, le_rfl⟩) hle⟩
      | cons c cs =>
        have hstep : mergeLoop (m + 1) q state
            = (t, i, state.set i v) ::
              mergeLoop m (rest ++ [(c.1, i, c.2, cs)]) (state.set i v) := by
          rw [mergeLoop, hpop, hcur]
        have htc : t < c.1 := by
          have := hch _ hemem
          rw [hcur] at this
          simp only [List.map_cons] at this
          exact (List.chain'_cons.mp this).1
        have hch1 : ∀ x ∈ rest ++ [(c.1, i, c.2, cs)],
            List.Chain' (fun a b => a < b)
              (x.1 :: x.2.2.2.map Prod.fst) := by
          intro x hx
          rcases List.mem_append.mp hx with hx | hx
          · exact hch x (hrest_sub x hx)
          · rw [List.mem_singleton] at hx
            subst hx
            have := hch _ hemem
            rw [hcur] at this
            simp only [List.map_cons] at this
            exact (List.chain'_cons.mp this).2
        have hnd1 : ((rest ++ [(c.1, i, c.2, cs)]).map
            (fun x => x.2.1)).Nodup := by
          rw [List.map_append]
          refine (List.nodup_cons.mpr ⟨hi_not, ?_⟩).perm ?_
          · rw [hrest_map]; exact hnd_rest
          · exact (List.perm_append_singleton _ _).symm
        have hbound1 : ∀ x ∈ rest ++ [(c.1, i, c.2, cs)],
            entryLexLt (t, i) (x.1, x.2.1) := by
          intro x hx
          rcases List.mem_append.mp hx with hx | hx
          · exact hbound x hx
          · rw [List.mem_singleton] at hx
            subst hx
            exact Or.inl htc
        obtain ⟨hch', hdom'⟩ := ih (rest ++ [(c.1, i, c.2, cs)])
          (state.set i v) hch1 hnd1
        rw [hstep]
        constructor
        · rw [List.map_cons, List.chain'_cons']
          refine ⟨?_, hch'⟩
          intro z hz
          cases hout : mergeLoop m (rest ++ [(c.1, i, c.2, cs)])
              (state.set i v) with
          | nil => rw [hout] at hz; cases hz
          | cons y ys =>
            rw [hout] at hz
            simp only [List.map_cons, List.head?_cons,
              Option.mem_def, Option.some.injEq] at hz
            subst hz
            obtain ⟨x, hx, hle⟩ := hdom' y (hout ▸ List.mem_cons_self y ys)
            exact entryLexLt_of_lt_of_le (hbound1 x hx) hle
        · intro y hy
          rcases List.mem_cons.mp hy with rfl | hy
          · exact ⟨(t, i, v, cursor), hemem, entryLexLe_refl _⟩
          · obtain ⟨x, hx, hle⟩ := hdom' y hy
            rcases List.mem_append.mp hx with hx2 | hx2
            · exact ⟨x, hrest_sub x hx2,
                entryLexLe_trans (entryLexLe_refl _) hle⟩
            · rw [List.mem_singleton] at hx2
              subst hx2
              refine ⟨(t, i, v, cursor), hemem, ?_⟩
              exact entryLexLe_trans (Or.inl htc) hle

theorem seedQueue_chain (tss : List (TimeSeries T V)) :
    ∀ (i : ℕ), (∀ ts ∈ tss, SortedPts ts.points) →
    ∀ x ∈ seedQueue i tss,
      List.Chain' (fun a b => a < b) (x.1 :: x.2.2.2.map Prod.fst) := by
  induction tss with
  | nil => intro i _ x hx; cases hx
  | cons ts rest ih =>
    intro i hsall x hx
    rw [seedQueue] at hx
    cases hp : ts.points with
    | nil =>
      rw [hp] at hx
      exact ih (i + 1) (fun u hu => hsall u (List.mem_cons_of_mem _ hu)) x hx
    | cons q qs =>
      rw [hp] at hx
      rcases List.mem_cons.mp hx with rfl | hx
      · have hts := hsall ts (List.mem_cons_self _ _)
        rw [hp] at hts
        have : List.Chain' (fun a b => a < b)
            ((q :: qs).map Prod.fst) := by
          rw [List.chain'_map]
          exact List.Pairwise.chain' hts
        rw [List.map_cons] at this
        exact this
      · exact ih (i + 1) (fun u hu => hsall u (List.mem_cons_of_mem _ hu)) x hx

theorem seedQueue_idx_ge (tss : List (TimeSeries T V)) :
    ∀ (i : ℕ), ∀ x ∈ seedQueue i tss, i ≤ x.2.1 := by
  induction tss with
  | nil => intro i x hx; cases hx
  | cons ts rest ih =>
    intro i x hx
    rw [seedQueue] at hx
    cases hp : ts.points with
    | nil =>
      rw [hp] at hx
      exact le_trans (Nat.le_succ i) (ih (i + 1) x hx)
    | cons q qs =>
      rw [hp] at hx
      rcases List.mem_cons.mp hx with rfl | hx
      · exact le_rfl
      · exact le_trans (Nat.le_succ i) (ih (i + 1) x hx)

theorem seedQueue_idx_nodup (tss : List (TimeSeries T V)) :
    ∀ (i : ℕ), ((seedQueue i tss).map (fun x => x.2.1)).Nodup := by
  induction tss with
  | nil => intro i; exact List.nodup_nil
  | cons ts rest ih =>
    intro i
    rw [seedQueue]
    cases hp : ts.points with
    | nil => exact ih (i + 1)
    | cons q qs =>
      rw [List.map_cons, List.nodup_cons]
      refine ⟨?_, ih (i + 1)⟩
      intro hc
      obtain ⟨x, hx, hxe⟩ := List.mem_map.mp hc
      have hge := seedQueue_idx_ge rest (i + 1) x hx
      have hxe2 : x.2.1 = i := hxe
      omega

theorem mapM_defaultVal_some (tss : List (TimeSeries T V))
    (hnf : ∀ ts ∈ tss, ts.isFloating = false) :
    ∃ state, List.mapM TimeSeries.defaultVal tss = some state := by
  induction tss with
  | nil => exact ⟨[], rfl⟩
  | cons ts rest ih =>
    obtain ⟨d, hd⟩ : ∃ d, ts.defaultVal = some d := by
      have h := hnf ts (List.mem_cons_self _ _)
      cases hg : ts.defaultVal with
      | none =>
        exfalso
        rw [TimeSeries.defaultVal] at hg
        rw [TimeSeries.isFloating] at h
        cases hdf : ts.dflt with
        | extendBack =>
          rw [hdf] at hg h
          rw [List.isEmpty_eq_false_iff_exists_mem] at h
          obtain ⟨p, hp⟩ := h
          obtain ⟨q, qs, hq⟩ := List.exists_cons_of_ne_nil
            (List.ne_nil_of_mem hp)
          rw [hq] at hg
          cases hg
        | explicit v =>
          rw [hdf] at hg
          cases hg
      | some w => exact ⟨w, rfl⟩
    obtain ⟨st, hst⟩ := ih (fun u hu => hnf u (List.mem_cons_of_mem _ hu))
    refine ⟨d :: st, ?_⟩
    rw [List.mapM_cons, hd, hst]
    rfl

theorem collapseLast_sublist {S : Type} :
    ∀ (l : List (T × S)), (collapseLast l).Sublist l := by
  intro l
  induction l with
  | nil => exact List.Sublist.refl _
  | cons x rest ih =>
    cases rest with
    | nil => exact List.Sublist.refl _
    | cons y rr =>
      rw [collapseLast]
      by_cases hxy : x.1 = y.1
      · rw [if_pos hxy]
        exact ih.cons _
      · rw [if_neg hxy]
        exact ih.cons₂ _

theorem chain_le_head_fst {S : Type} :
    ∀ {y : T × S} {rr : List (T × S)},
    List.Chain' (fun a b => a.1 ≤ b.1) (y :: rr) →
    ∀ w ∈ y :: rr, y.1 ≤ w.1 := by
  intro y rr
  induction rr generalizing y with
  | nil =>
    intro _ w hw
    rw [List.mem_singleton] at hw
    exact hw ▸ le_rfl
  | cons z zs ih =>
    intro h w hw
    rw [List.chain'_cons] at h
    rcases List.mem_cons.mp hw with rfl | hw
    · exact le_rfl
    · exact le_trans h.1 (ih h.2 w hw)

theorem collapseLast_head {S : Type} :
    ∀ (rr : List (T × S)) (y : T × S),
    List.Chain' (fun a b => a.1 ≤ b.1) (y :: rr) →
    ∃ z tl, collapseLast (y :: rr) = z :: tl ∧ y.1 ≤ z.1 := by
  intro rr
  induction rr with
  | nil => exact fun y _ => ⟨y, [], rfl, le_rfl⟩
  | cons w ws ih =>
    intro y h
    rw [List.chain'_cons] at h
    by_cases hyw : y.1 = w.1
    · obtain ⟨z, tl, hz, hle⟩ := ih w h.2
      exact ⟨z, tl, by rw [collapseLast, if_pos hyw]; exact hz,
        le_trans h.1 hle⟩
    · exact ⟨y, collapseLast (w :: ws),
        by rw [collapseLast, if_neg hyw], le_rfl⟩

theorem collapseLast_chain_lt {S : Type} :
    ∀ (l : List (T × S)), List.Chain' (fun a b => a.1 ≤ b.1) l →
    List.Chain' (fun a b => a.1 < b.1) (collapseLast l) := by
  intro l
  induction l with
  | nil => intro _; exact List.chain'_nil
  | cons x rest ih =>
    intro h
    cases rest with
    | nil => exact List.chain'_singleton _
    | cons y rr =>
      rw [List.chain'_cons] at h
      by_cases hxy : x.1 = y.1
      · rw [collapseLast, if_pos hxy]
        exact ih h.2
      · rw [collapseLast, if_neg hxy]
        obtain ⟨z, tl, hz, hle⟩ := collapseLast_head rr y h.2
        rw [hz, List.chain'_cons]
        refine ⟨lt_of_lt_of_le (lt_of_le_of_ne h.1 hxy) hle, ?_⟩
        rw [← hz]
        exact ih h.2

theorem collapseLast_mem_fst {S : Type} :
    ∀ (l : List (T × S)) (t : T),
    ((∃ y ∈ l, y.1 = t) ↔ ∃ z ∈ collapseLast l, z.1 = t) := by
  intro l
  induction l with
  | nil =>
    intro t
    rw [show collapseLast ([] : List (T × S)) = [] from rfl]
  | cons x rest ih =>
    intro t
    cases rest with
    | nil => rw [show collapseLast [x] = [x] from rfl]
    | cons y rr =>
      by_cases hxy : x.1 = y.1
      · rw [collapseLast, if_pos hxy]
        rw [← ih t]
        constructor
        · rintro ⟨w, hw, rfl⟩
          rcases List.mem_cons.mp hw with rfl | hw
          · exact ⟨y, List.mem_cons_self _ _, hxy.symm⟩
          · exact ⟨w, hw, rfl⟩
        · rintro ⟨w, hw, rfl⟩
          exact ⟨w, List.mem_cons_of_mem _ hw, rfl⟩
      · rw [collapseLast, if_neg hxy]
        constructor
        · rintro ⟨w, hw, rfl⟩
          rcases List.mem_cons.mp hw with rfl | hw
          · exact ⟨w, List.mem_cons_self _ _, rfl⟩
          · obtain ⟨z, hz, hze⟩ := (ih w.1).mp ⟨w, hw, rfl⟩
            exact ⟨z, List.mem_cons_of_mem _ hz, hze⟩
        · rintro ⟨z, hz, rfl⟩
          rcases List.mem_cons.mp hz with rfl | hz
          · exact ⟨z, List.mem_cons_self _ _, rfl⟩
          · obtain ⟨w, hw, hwe⟩ := (ih z.1).mpr ⟨z, hz, rfl⟩
            exact ⟨w, List.mem_cons_of_mem _ hw, hwe⟩

theorem collapseLast_last_of_group {S : Type} :
    ∀ (l : List (T × S)), List.Chain' (fun a b => a.1 ≤ b.1) l →
    ∀ z ∈ collapseLast l,
      (l.filter (fun w => w.1 = z.1)).getLast? = some z := by
  intro l
  induction l with
  | nil => intro _ z hz; cases hz
  | cons x rest ih =>
    intro h z hz
    cases rest with
    | nil =>
      rw [show collapseLast [x] = [x] from rfl, List.mem_singleton] at hz
      subst hz
      rw [List.filter_cons_of_pos (by simp)]
      rfl
    | cons y rr =>
      rw [List.chain'_cons] at h
      by_cases hxy : x.1 = y.1
      · rw [collapseLast, if_pos hxy] at hz
        have hrec := ih h.2 z hz
        by_cases hxz : x.1 = z.1
        · rw [List.filter_cons_of_pos (by simp [hxz])]
          have hyz : y.1 = z.1 := hxy ▸ hxz
          have : (y :: rr).filter (fun w => w.1 = z.1)
              = y :: rr.filter (fun w => w.1 = z.1) :=
            List.filter_cons_of_pos (by simp [hyz])
          rw [this] at hrec
          rw [this, List.getLast?_cons_cons]
          exact hrec
        · rw [List.filter_cons_of_neg (by simp [hxz])]
          exact hrec
      · rw [collapseLast, if_neg hxy] at hz
        rcases List.mem_cons.mp hz with rfl | hz
        · rw [List.filter_cons_of_pos (by simp)]
          have hnone : (y :: rr).filter (fun w => w.1 = z.1) = [] := by
            rw [List.filter_eq_nil_iff]
            intro w hw
            have hyw := chain_le_head_fst h.2 w hw
            have : z.1 < y.1 := lt_of_le_of_ne h.1 hxy
            simp only [decide_eq_true_eq]
            intro hc
            rw [← hc] at this
            exact absurd hyw (not_le.mpr this)
          rw [hnone]
          rfl
        · have hzge : y.1 ≤ z.1 :=
            chain_le_head_fst h.2 z ((collapseLast_sublist _).mem hz)
          have hxz : ¬ x.1 = z.1 := by
            intro hc
            exact absurd hzge
              (not_le.mpr (hc ▸ lt_of_le_of_ne h.1 hxy))
          rw [List.filter_cons_of_neg (by simp [hxz])]
          exact ih h.2 z hz

/-- C8: for every list of sorted non-floating series, the instrumented
`_iter_merge` yields entries whose `(time, series index)` pairs strictly
increase lexicographically — timestamps are non-decreasing and ties are
popped in ascending input-series index order — and the public `iter_merge`
collapses the yields so that each distinct timestamp appears exactly once
(its times strictly increase and cover exactly the yielded times), keeping
the last state of each group of tied yields. -/
theorem claimC8_merge_order (tss : List (TimeSeries T V))
    (hs : ∀ ts ∈ tss, SortedPts ts.points)
    (hnf : ∀ ts ∈ tss, ts.isFloating = false) :
    ∃ raw, iterMergeRaw tss = some raw ∧
      List.Chain' entryLexLt (raw.map (fun y => (y.1, y.2.1))) ∧
      TimeSeries.iterMerge tss
        = some (collapseLast (raw.map (fun y => (y.1, y.2.2)))) ∧
      List.Chain' (fun a b => a.1 < b.1)
        (collapseLast (raw.map (fun y => (y.1, y.2.2)))) ∧
      (∀ t, (∃ y ∈ raw, y.1 = t) ↔
        ∃ z ∈ collapseLast (raw.map (fun y => (y.1, y.2.2))), z.1 = t) ∧
      (∀ z ∈ collapseLast (raw.map (fun y => (y.1, y.2.2))),
        ((raw.map (fun y => (y.1, y.2.2))).filter
          (fun w => w.1 = z.1)).getLast? = some z) := by
  obtain ⟨state, hstate⟩ := mapM_defaultVal_some tss hnf
  have hraw : iterMergeRaw tss
      = some (mergeLoop ((tss.map (fun ts => ts.points.length)).sum)
          (seedQueue 0 tss) state) := by
    rw [iterMergeRaw, hstate]
    rfl
  obtain ⟨hchain, _⟩ := mergeLoop_sorted
    ((tss.map (fun ts => ts.points.length)).sum) (seedQueue 0 tss) state
    (seedQueue_chain tss 0 hs) (seedQueue_idx_nodup tss 0)
  have hle : List.Chain' (fun a b => a.1 ≤ b.1)
      ((mergeLoop ((tss.map (fun ts => ts.points.length)).sum)
        (seedQueue 0 tss) state).map (fun y => (y.1, y.2.2))) := by
    rw [List.chain'_map]
    rw [List.chain'_map] at hchain
    refine hchain.imp ?_
    intro a b hab
    rcases hab with hab | ⟨hab, _⟩
    · exact le_of_lt hab
    · exact le_of_eq hab
  refine ⟨_, hraw, hchain, ?_, collapseLast_chain_lt _ hle, ?_, ?_⟩
  · rw [TimeSeries.iterMerge]
    cases tss with
    | nil =>
      rw [show seedQueue 0 ([] : List (TimeSeries T V)) = [] from rfl,
        mergeLoop_nil_queue]
      rfl
    | cons ts0 rest =>
      rw [if_neg (by simp), if_neg (by
        simp only [List.any_eq_true, not_exists, not_and]
        intro u hu hc
        rw [hnf u hu] at hc
        cases hc)]
      rw [TimeSeries.iterMergeU, hraw]
      rfl
  · intro t
    rw [← collapseLast_mem_fst]
    constructor
    · rintro ⟨y, hy, rfl⟩
      exact ⟨(y.1, y.2.2), List.mem_map.mpr ⟨y, hy, rfl⟩, rfl⟩
    · rintro ⟨w, hw, rfl⟩
      obtain ⟨y, hy, rfl⟩ := List.mem_map.mp hw
      exact ⟨y, hy, rfl⟩
  · exact collapseLast_last_of_group _ hle

theorem claimC8_witness :
    iterMergeRaw [exC8a, exC8b]
      = some [((0 : ℚ), 0, [(1 : ℚ), 6]), (0, 1, [1, 5]), (2, 0, [3, 5])] ∧
    TimeSeries.iterMerge [exC8a, exC8b]
      = some [((0 : ℚ), [(1 : ℚ), 5]), (2, [3, 5])] := by
  obtain ⟨raw, h1, h2, h3, h4, h5, h6⟩ :=
    claimC8_merge_order [exC8a, exC8b] (by decide) (by decide)
  have hconc : iterMergeRaw [exC8a, exC8b]
      = some [((0 : ℚ), 0, [(1 : ℚ), 6]), (0, 1, [1, 5]), (2, 0, [3, 5])] := by
    decide
  have hr : raw
      = [((0 : ℚ), 0, [(1 : ℚ), 6]), (0, 1, [1, 5]), (2, 0, [3, 5])] :=
    Option.some.inj (h1.symm.trans hconc)
  subst hr
  refine ⟨hconc, ?_⟩
  rw [h3]
  decide

/-! ### The Domain intersection -/

theorem getPrevious_some_of_default {ts : TimeSeries T V} {dv : V}
    (hd : ts.defaultVal = some dv) (t : T) :
    ∃ w, ts.getPrevious t = some w := by
  rw [TimeSeries.getPrevious]
  cases lastLe t ts.points with
  | none => exact ⟨dv, hd⟩
  | some p => exact ⟨p.2, rfl⟩

theorem getPrevious_explicit_domVal {x : TimeSeries T Bool}
    (hdx : x.dflt = Default.explicit false) (t : T) :
    x.getPrevious t = some (domVal x t) := by
  cases h : x.getPrevious t with
  | none =>
    exfalso
    have hf := (getPrevious_none_iff x t).mp h
    simp [TimeSeries.isFloating, hdx] at hf
  | some v =>
    rw [domVal, h]
    rfl

theorem keys_setKey {l : List (T × V)} (hs : SortedPts l) (t : T) (v : V)
    (k : T) :
    k ∈ (setKey l t v).map Prod.fst ↔ k = t ∨ k ∈ l.map Prod.fst := by
  constructor
  · intro hk
    obtain ⟨p, hp, rfl⟩ := List.mem_map.mp hk
    rcases (mem_setKey hs).mp hp with rfl | ⟨hp2, _⟩
    · exact Or.inl rfl
    · exact Or.inr (List.mem_map.mpr ⟨p, hp2, rfl⟩)
  · rintro (rfl | hk)
    · exact List.mem_map.mpr ⟨(k, v), (mem_setKey hs).mpr (Or.inl rfl), rfl⟩
    · obtain ⟨p, hp, rfl⟩ := List.mem_map.mp hk
      by_cases hpt : p.1 = t
      · exact List.mem_map.mpr
          ⟨(t, v), (mem_setKey hs).mpr (Or.inl rfl), hpt.symm⟩
      · exact List.mem_map.mpr
          ⟨p, (mem_setKey hs).mpr (Or.inr ⟨hp, hpt⟩), rfl⟩

theorem foldWrite_mem {A : Type} (key : A → T) (value : A → V) (f : T → V)
    (L : List A) :
    ∀ (acc : TimeSeries T V),
    (∀ x ∈ L, value x = f (key x)) →
    SortedPts acc.points →
    (∀ p ∈ acc.points, p.2 = f p.1) →
    SortedPts ((L.foldl
      (fun a x => a.set (key x) (value x) false) acc).points) ∧
    (∀ p ∈ (L.foldl
        (fun a x => a.set (key x) (value x) false) acc).points,
      p.2 = f p.1) ∧
    (∀ k, k ∈ ((L.foldl
        (fun a x => a.set (key x) (value x) false) acc).points).map Prod.fst
      ↔ k ∈ L.map key ∨ k ∈ acc.points.map Prod.fst) ∧
    (L.foldl (fun a x => a.set (key x) (value x) false) acc).dflt
      = acc.dflt := by
  induction L with
  | nil =>
    intro acc _ hsacc hvacc
    refine ⟨hsacc, hvacc, fun k => ?_, rfl⟩
    simp
  | cons x rest ih =>
    intro acc hgv hsacc hvacc
    rw [List.foldl_cons, set_false_eq acc (key x) (value x)]
    obtain ⟨ih1, ih2, ih3, ih4⟩ := ih
      (TimeSeries.mk (setKey acc.points (key x) (value x)) acc.dflt)
      (fun y hy => hgv y (List.mem_cons_of_mem _ hy))
      (sortedPts_setKey hsacc)
      (by
        intro p hp
        rcases (mem_setKey hsacc).mp hp with rfl | ⟨hp2, _⟩
        · exact hgv x (List.mem_cons_self _ _)
        · exact hvacc p hp2)
    refine ⟨ih1, ih2, fun k => ?_, ih4⟩
    rw [ih3 k]
    rw [show (TimeSeries.mk (setKey acc.points (key x) (value x))
        acc.dflt).points = setKey acc.points (key x) (value x) from rfl]
    rw [keys_setKey hsacc, List.map_cons, List.mem_cons]
    tauto

theorem sliceTS_spec (ts : TimeSeries T V) (s e : T) (dv : V)
    (hs : SortedPts ts.points) (hse : s < e)
    (hd : ts.defaultVal = some dv) :
    ∃ sa, ts.sliceTS s e = some sa ∧ SortedPts sa.points ∧
      ∀ p ∈ sa.points, ts.getPrevious p.1 = some p.2 := by
  obtain ⟨v0, hv0⟩ := getPrevious_some_of_default hd s
  have hsk : SortedPts (ts.points.filter (fun p => s < p.1 ∧ p.1 ≤ e)) :=
    List.Pairwise.sublist (List.filter_sublist _) hs
  have hub : ∀ k ∈ ts.points.filter (fun p => s < p.1 ∧ p.1 ≤ e),
      k.1 ≤ e := fun k hk => (mem_window.mp hk).2.2
  obtain ⟨bb, tl, hcons⟩ :=
    buildPeriods_head s v0
      (ts.points.filter (fun p => s < p.1 ∧ p.1 ≤ e)) hse
  have hval : ∀ tr ∈ ((s, bb, v0) :: tl : List (T × T × V)),
      ts.getPrevious tr.1 = some tr.2.2 := by
    intro tr htr
    rcases buildPeriods_mem _ s v0 hub hsk tr (hcons ▸ htr) with ⟨h1, h2⟩ | h
    · rw [h1, h2]; exact hv0
    · exact getPrevious_key hs (mem_window.mp h).1
  obtain ⟨v1, hv1⟩ := getPrevious_some_of_default hd
    ((((s, bb, v0) :: tl).getLastD (s, e, dv)).2.1)
  have hcomp : ts.sliceTS s e
      = some ((((s, bb, v0) :: tl).foldl
          (fun acc tr => acc.set tr.1 tr.2.2 false)
          (TimeSeries.mk [] (Default.explicit dv))).set
            ((((s, bb, v0) :: tl).getLastD (s, e, dv)).2.1) v1 false) := by
    rw [TimeSeries.sliceTS, hd]
    show (ts.iterPeriods s e (fun _ _ _ => true) >>= fun trips => _) = _
    rw [iterPeriods_eq hse hv0, hcons]
    show (ts.getPrevious ((((s, bb, v0) :: tl).getLastD (s, e, dv)).2.1)
        >>= fun v1 =>
      some ((((s, bb, v0) :: tl).foldl
          (fun acc tr => acc.set tr.1 tr.2.2 false)
          (TimeSeries.mk [] (Default.explicit dv))).set
            ((((s, bb, v0) :: tl).getLastD (s, e, dv)).2.1) v1 false)) = _
    rw [hv1]
    rfl
  have hconv : ∀ p : T × V,
      p.2 = (ts.getPrevious p.1).getD dv →
      ts.getPrevious p.1 = some p.2 := by
    intro p hp
    obtain ⟨w, hw⟩ := getPrevious_some_of_default hd p.1
    rw [hw] at hp ⊢
    rw [hp]
    rfl
  obtain ⟨hw1, hw2, hw3, hw4⟩ := foldWrite_mem
    (fun tr : T × T × V => tr.1) (fun tr => tr.2.2)
    (fun t => (ts.getPrevious t).getD dv) ((s, bb, v0) :: tl)
    (TimeSeries.mk [] (Default.explicit dv))
    (by
      intro x hx
      show x.2.2 = (ts.getPrevious x.1).getD dv
      rw [hval x hx]
      rfl)
    (List.Pairwise.nil)
    (by intro p hp; cases hp)
  refine ⟨_, hcomp, ?_, ?_⟩
  · rw [set_false_eq]
    exact sortedPts_setKey hw1
  · intro p hp
    rw [set_false_eq] at hp
    refine hconv p ?_
    rcases (mem_setKey hw1).mp hp with rfl | ⟨hp2, _⟩
    · show v1 = (ts.getPrevious
        ((((s, bb, v0) :: tl).getLastD (s, e, dv)).2.1)).getD dv
      rw [hv1]
      rfl
    · exact hw2 p hp2

theorem foldlM_write_eq (x : TimeSeries T Bool)
    (hdx : x.dflt = Default.explicit false)
    (g : T × Bool → Bool → Bool) (L : List (T × Bool)) :
    ∀ acc : TimeSeries T Bool,
    L.foldlM (fun acc p => do
        let bv ← x.getPrevious p.1
        return acc.set p.1 (g p bv) false) acc
      = some (L.foldl
          (fun acc p => acc.set p.1 (g p (domVal x p.1)) false) acc) := by
  induction L with
  | nil => intro acc; rfl
  | cons p rest ih =>
    intro acc
    rw [List.foldlM_cons, getPrevious_explicit_domVal hdx p.1]
    exact ih (acc.set p.1 (g p (domVal x p.1)) false)

/-- C9 (amended): for every pair of sorted Domains (boolean series with the
explicit `False` default), `a & b` is the empty Domain when the overlap
window `[max(lowers), min(uppers)]` is empty; otherwise the result holds,
at every key drawn from either side's slice over the overlap, the pointwise
AND of the two sides' step values, and its key set is exactly the union of
the two slices' keys.  The claim's final clause is dropped: the result is
NOT compacted (`__and__` writes with `compact=False`), as the
counterexample shows. -/
theorem claimC9_domain_and [OrderBot T] [OrderTop T]
    (a b : TimeSeries T Bool)
    (hsa : SortedPts a.points) (hsb : SortedPts b.points)
    (hda : a.dflt = Default.explicit false)
    (hdb : b.dflt = Default.explicit false) :
    (min a.upperB b.upperB ≤ max a.lowerB b.lowerB →
      domAnd a b = some (mkDomain [])) ∧
    (max a.lowerB b.lowerB < min a.upperB b.upperB →
      ∃ sa sb r,
        a.sliceTS (max a.lowerB b.lowerB) (min a.upperB b.upperB)
          = some sa ∧
        b.sliceTS (max a.lowerB b.lowerB) (min a.upperB b.upperB)
          = some sb ∧
        domAnd a b = some r ∧
        (∀ p ∈ r.points, p.2 = (domVal a p.1 && domVal b p.1)) ∧
        (∀ k, k ∈ r.points.map Prod.fst ↔
          k ∈ sa.points.map Prod.fst ∨ k ∈ sb.points.map Prod.fst)) := by
  constructor
  · intro hle
    rw [domAnd, if_pos hle]
  · intro hlt
    have hdva : a.defaultVal = some false := by
      rw [TimeSeries.defaultVal, hda]
    have hdvb : b.defaultVal = some false := by
      rw [TimeSeries.defaultVal, hdb]
    obtain ⟨sa, hsa1, hsa2, hsa3⟩ := sliceTS_spec a _ _ false hsa hlt hdva
    obtain ⟨sb, hsb1, hsb2, hsb3⟩ := sliceTS_spec b _ _ false hsb hlt hdvb
    have hva : ∀ p ∈ sa.points, p.2 = domVal a p.1 := by
      intro p hp
      rw [domVal, hsa3 p hp]
      rfl
    have hvb : ∀ p ∈ sb.points, p.2 = domVal b p.1 := by
      intro p hp
      rw [domVal, hsb3 p hp]
      rfl
    obtain ⟨hw1s, hw1v, hw1k, hw1d⟩ := foldWrite_mem
      (fun p : T × Bool => p.1) (fun p => p.2 && domVal b p.1)
      (fun t => domVal a t && domVal b t) sa.points (mkDomain [])
      (by
        intro x hx
        show (x.2 && domVal b x.1) = (domVal a x.1 && domVal b x.1)
        rw [hva x hx])
      (List.Pairwise.nil)
      (by intro p hp; cases hp)
    obtain ⟨hw2s, hw2v, hw2k, hw2d⟩ := foldWrite_mem
      (fun p : T × Bool => p.1) (fun p => domVal a p.1 && p.2)
      (fun t => domVal a t && domVal b t) sb.points
      (sa.points.foldl
        (fun a2 x => a2.set x.1 (x.2 && domVal b x.1) false) (mkDomain []))
      (by
        intro x hx
        show (domVal a x.1 && x.2) = (domVal a x.1 && domVal b x.1)
        rw [hvb x hx])
      hw1s hw1v
    have hcomp : domAnd a b
        = some (sb.points.foldl
            (fun a2 x => a2.set x.1 (domVal a x.1 && x.2) false)
            (sa.points.foldl
              (fun a2 x => a2.set x.1 (x.2 && domVal b x.1) false)
              (mkDomain []))) := by
      rw [domAnd, if_neg (not_le.mpr hlt)]
      show (a.sliceTS (max a.lowerB b.lowerB) (min a.upperB b.upperB)
          >>= fun sa2 => _) = _
      rw [hsa1]
      show (b.sliceTS (max a.lowerB b.lowerB) (min a.upperB b.upperB)
          >>= fun sb2 => _) = _
      rw [hsb1]
      show ((sa.points.foldlM (fun acc p => do
          let bv ← b.getPrevious p.1
          return acc.set p.1 (p.2 && bv) false) (mkDomain []))
        >>= fun r1 => (sb.points.foldlM (fun acc p => do
          let av ← a.getPrevious p.1
          return acc.set p.1 (av && p.2) false) r1)
        >>= fun r2 => some r2) = _
      rw [foldlM_write_eq b hdb (fun p bv => p.2 && bv) sa.points
        (mkDomain [])]
      show ((sb.points.foldlM (fun acc p => do
          let av ← a.getPrevious p.1
          return acc.set p.1 (av && p.2) false)
            (sa.points.foldl (fun acc p =>
              acc.set p.1 (p.2 && domVal b p.1) false) (mkDomain [])))
        >>= fun r2 => some r2) = _
      rw [foldlM_write_eq a hda (fun p av => av && p.2) sb.points]
      rfl
    refine ⟨sa, sb, _, hsa1, hsb1, hcomp, ?_, ?_⟩
    · intro p hp
      exact hw2v p hp
    · intro k
      rw [hw2k k, hw1k k]
      rw [show (mkDomain [] : TimeSeries T Bool).points = [] from rfl]
      simp only [List.map_nil, List.not_mem_nil, or_false]
      rw [show sb.points.map (fun p : T × Bool => p.1)
          = sb.points.map Prod.fst from rfl,
        show sa.points.map (fun p : T × Bool => p.1)
          = sa.points.map Prod.fst from rfl]
      tauto

/-- C9 is refuted as stated (compactness clause): with
`a = Domain((2,3),(4,5))` and `b = Domain((0,1),(8,9))`, whose overlap
window is `[2, 5]`, `a & b` yields four consecutive points all carrying
`False` — running `compact` on it would change it, so the result is not
compacted. -/
theorem claimC9_counterexample :
    (domAnd exC9a exC9b).map (fun r => r.points)
      = some [(fq 2, false), (fq 3, false), (fq 4, false), (fq 5, false)] ∧
    compactList none
        [(fq 2, false), (fq 3, false), (fq 4, false), (fq 5, false)]
      = [(fq 2, false)] ∧
    ¬ (compactList none
        [(fq 2, false), (fq 3, false), (fq 4, false), (fq 5, false)]
      = [(fq 2, false), (fq 3, false), (fq 4, false), (fq 5, false)]) := by
  refine ⟨by decide, by decide, by decide⟩

theorem claimC9_witness :
    domAnd exC9wa exC9wb
      = some (mkDomain [(fq 1, true), (fq 2, false)]) ∧
    false = (domVal exC9wa (fq 2) && domVal exC9wb (fq 2)) := by
  obtain ⟨hempty, hover⟩ := claimC9_domain_and exC9wa exC9wb
    (by decide) (by decide) (by decide) (by decide)
  obtain ⟨sa, sb, r, h1, h2, h3, h4, h5⟩ := hover (by decide)
  have hconc : domAnd exC9wa exC9wb
      = some (mkDomain [(fq 1, true), (fq 2, false)]) := by decide
  have hr : r = mkDomain [(fq 1, true), (fq 2, false)] :=
    Option.some.inj (h3.symm.trans hconc)
  subst hr
  exact ⟨hconc, h4 (fq 2, false) (by decide)⟩

end Traces
